import Mathlib

/-!
Shallow embedding of the replicated blockchain engine in
`src/blockchain/blockchain.py` (class `BlockChain`), together with proofs of
the specification claims about it.

Modelling conventions:
* Python `dict`s are modelled as insertion-ordered association lists
  (`List (K × V)`): assignment to an existing key updates it in place,
  assignment to a fresh key appends at the end, exactly as CPython does.
* Python `set`s of strings/ints are modelled as duplicate-free lists with
  `add_to_set` / `discard_from_set`.
* The SHA-256 change hash `_hash_change` is kept abstract: every definition
  takes the hash function as the parameter `hashChange`.  Theorems that need
  the standard collision-resistance facts about SHA-256 take them as explicit
  hypotheses (`hashChange c ≠ ROOT_HASH`, injectivity).
* `pow(x, e, m)` on nonnegative ints is `x ^ e % m`.
* Recursions of the Python code that walk `old`-links or drain the pending
  buffer are given explicit fuel; a `none` result means the corresponding
  Python call does not return normally (unbounded recursion or a raised
  exception such as `KeyError`).  Sufficient fuel is proved for reachable
  states.
* `send_json` messages: `add_block`'s only possible message is
  `{'missing': old}`; the list of emitted messages is modelled as the
  `List Nat` of the `old` hashes sent, in order.
-/

namespace BlockchainSpec

/-! ### Python dict / set primitives -/

section AList

variable {K : Type} {V : Type} [DecidableEq K]

/-- `d.get(k)` / `k in d` backing lookup: first entry with the given key. -/
def lookupD : List (K × V) → K → Option V
  | [], _ => none
  | (k, v) :: rest, key => if k = key then some v else lookupD rest key

/-- `d[k]` with a default: `d.get(k, default)`. -/
def getD (l : List (K × V)) (key : K) (default : V) : V :=
  (lookupD l key).getD default

/-- `d[k] = v`: update in place if present, else append (CPython dict order). -/
def insertD : List (K × V) → K → V → List (K × V)
  | [], key, val => [(key, val)]
  | (k, v) :: rest, key, val =>
      if k = key then (k, val) :: rest else (k, v) :: insertD rest key val

/-- `del d[k]`: drop the entry with the given key. -/
def eraseD : List (K × V) → K → List (K × V)
  | [], _ => []
  | (k, v) :: rest, key => if k = key then rest else (k, v) :: eraseD rest key

end AList

/-- `s.add(x)` on a Python set modelled as a duplicate-free list. -/
def add_to_set [DecidableEq α] (l : List α) (x : α) : List α :=
  if x ∈ l then l else l ++ [x]

/-- `s.discard(x)` on a Python set modelled as a duplicate-free list. -/
def discard_from_set [DecidableEq α] (l : List α) (x : α) : List α :=
  l.filter (fun y => y ≠ x)

/-! ### Data model (`blockchain.py` lines 6-41) -/

/-- `ROOT_HASH` constant (line 6). -/
def ROOT_HASH : Nat :=
  30791614295234051711832508548800469788824342480481074093233550318061354680202

/-- A `Change` record (lines 11-16). -/
structure Change where
  old : Nat
  src : String
  dst : String
  n : Int
  memo : String
deriving DecidableEq

/-- A `Block` record (lines 18-20).  Signatures are nonnegative ints. -/
structure Block where
  change : Change
  signature : Nat
deriving DecidableEq

/-- A `UserData` record (lines 22-24); both fields are optional. -/
structure UserData where
  key : Option Nat := none
  host : Option String := none
deriving DecidableEq

/-- The mutable state of a `BlockChain` object (lines 32-41).  The
`balances_cache` / `paid_cache` memoization dicts are elided: blocks are
immutable once stored, so the caches are semantically transparent and
`_compute_balances` / `_compute_paid_status` are modelled by their uncached
recursions. -/
structure BlockChain where
  blocks : List (Nat × Block)
  users : List (String × UserData)
  head : Nat
  chain_lengths : List (Nat × Nat)
  children : List (Nat × List Nat)
  pending : List (Nat × List Block)
deriving DecidableEq

/-- `BlockChain.__init__` (lines 32-41). -/
def blockchain_init : BlockChain :=
  { blocks := []
    users := []
    head := ROOT_HASH
    chain_lengths := [(ROOT_HASH, 0)]
    children := []
    pending := [] }

/-- `BlockChain.add_users` (lines 43-51): `self.users.update(userdata)`. -/
def add_users (s : BlockChain) (userdata : List (String × UserData)) : BlockChain :=
  { s with users := userdata.foldl (fun u kv => insertD u kv.1 kv.2) s.users }

/-! ### Crypto and role helpers (lines 53-79) -/

/-- `_verify_signature` (lines 59-69): the hash of the change must equal
`pow(signature, 0x10001, public_key)`; fails when `src` is unknown or has no
key. -/
def verify_signature (hashChange : Change → Nat) (users : List (String × UserData))
    (block : Block) : Bool :=
  let change_hash := hashChange block.change
  match lookupD users block.change.src with
  | none => false
  | some ud =>
    match ud.key with
    | none => false
    | some public_key => change_hash = block.signature ^ 65537 % public_key

/-- The two-character booth suffix. -/
def booth_suffix : String := "_b"

/-- `_is_booth` (lines 71-72): `username.endswith('_b')`, i.e. the last two
characters are `_` then `b`.  (Phrased via the character list, which is
equivalent to `String.endsWith` and evaluates in the kernel.) -/
def is_booth (username : String) : Bool :=
  username.toList.reverse.take 2 == ['b', '_']

/-- `_get_player_booth_pair` (lines 74-79): returns `(player, booth)` when
exactly one of the two names is a booth. -/
def get_player_booth_pair (user1 user2 : String) : Option (String × String) :=
  if is_booth user1 && !is_booth user2 then some (user2, user1)
  else if is_booth user2 && !is_booth user1 then some (user1, user2)
  else none

/-! ### Balances (lines 81-99) -/

/-- One step of `_compute_balances` (lines 95-96): `parent[src] -= n;
parent[dst] += n`.  `none` models the `KeyError` raised when `src` or `dst`
is absent from the balances dict. -/
def apply_balance (parent_balances : List (String × Int)) (change : Change) :
    Option (List (String × Int)) :=
  match lookupD parent_balances change.src with
  | none => none
  | some sv =>
    let b1 := insertD parent_balances change.src (sv - change.n)
    match lookupD b1 change.dst with
    | none => none
    | some dv => some (insertD b1 change.dst (dv + change.n))

/-- `_compute_balances` (lines 81-99), with explicit recursion fuel.
At `ROOT_HASH` every known user has 20 tickets; otherwise the parent
balances receive the block's delta.  `none` models nontermination or a
`KeyError` (missing block / missing user). -/
def compute_balances (s : BlockChain) : Nat → Nat → Option (List (String × Int))
  | 0, _ => none
  | fuel + 1, block_hash =>
    if block_hash = ROOT_HASH then
      some (s.users.map (fun kv => (kv.1, (20 : Int))))
    else
      match lookupD s.blocks block_hash with
      | none => none
      | some block =>
        match compute_balances s fuel block.change.old with
        | none => none
        | some parent_balances => apply_balance parent_balances block.change

/-! ### Paid status (lines 101-128) -/

/-- One step of `_compute_paid_status` (lines 115-126): on a player→booth
transfer the booth is added to the player's paid set, on a booth→player
transfer it is discarded; other changes leave the map unchanged. -/
def apply_paid (parent_paid : List (String × List String)) (change : Change) :
    List (String × List String) :=
  match get_player_booth_pair change.src change.dst with
  | none => parent_paid
  | some pb =>
    let player := pb.1
    let booth := pb.2
    let cur := getD parent_paid player []
    if change.src = player then insertD parent_paid player (add_to_set cur booth)
    else insertD parent_paid player (discard_from_set cur booth)

/-- `_compute_paid_status` (lines 101-128), with explicit recursion fuel.
`paid(ROOT) = {}`; `none` models nontermination or a `KeyError`. -/
def compute_paid_status (s : BlockChain) : Nat → Nat → Option (List (String × List String))
  | 0, _ => none
  | fuel + 1, block_hash =>
    if block_hash = ROOT_HASH then some []
    else
      match lookupD s.blocks block_hash with
      | none => none
      | some block =>
        match compute_paid_status s fuel block.change.old with
        | none => none
        | some parent_paid => some (apply_paid parent_paid block.change)

/-! ### Semantic validator (lines 130-161) -/

/-- Error strings returned by `_is_valid_change` and `create_block`. -/
def err_not_authorized : String := "Not authorized"

def err_invalid_amount : String := "Invalid amount"

def err_not_paid : String := "Not paid"

def unknown_user (name : String) : String := "Unknown user: " ++ name

/-- `_is_valid_change` (lines 130-161).  The outer `Option` is the fuel /
exception monad of `compute_paid_status`; a normal return is
`some none` (valid) or `some (some errorString)`. -/
def is_valid_change (s : BlockChain) (fuel : Nat) (change : Change)
    (check_paid : Bool) : Option (Option String) :=
  let src := change.src
  let dst := change.dst
  let n := change.n
  if (lookupD s.users src).isNone then some (some (unknown_user src))
  else if (lookupD s.users dst).isNone then some (some (unknown_user dst))
  else
    match get_player_booth_pair src dst with
    | none => some (some err_not_authorized)
    | some pb =>
      let player := pb.1
      let booth := pb.2
      if player ++ booth_suffix = booth then some (some err_not_authorized)
      else if (if src = player then n < 1 ∨ 5 < n else n < 0 ∨ 10 < n) then
        some (some err_invalid_amount)
      else if check_paid && src = booth then
        match compute_paid_status s fuel change.old with
        | none => none
        | some paid_status =>
          match lookupD paid_status player with
          | none => some (some err_not_paid)
          | some booths =>
            if booth ∈ booths then some none else some (some err_not_paid)
      else some none

/-- `_is_valid_change` with the parent's paid status passed explicitly
instead of recomputed: the same checks as `is_valid_change`, used to state
intrinsic validity hypotheses about a block independently of a particular
engine state (see `is_valid_change_eq_pure`). -/
def valid_change_pure (users : List (String × UserData))
    (parent_paid : List (String × List String)) (change : Change)
    (check_paid : Bool) : Option String :=
  let src := change.src
  let dst := change.dst
  let n := change.n
  if (lookupD users src).isNone then some (unknown_user src)
  else if (lookupD users dst).isNone then some (unknown_user dst)
  else
    match get_player_booth_pair src dst with
    | none => some err_not_authorized
    | some pb =>
      let player := pb.1
      let booth := pb.2
      if player ++ booth_suffix = booth then some err_not_authorized
      else if (if src = player then n < 1 ∨ 5 < n else n < 0 ∨ 10 < n) then
        some err_invalid_amount
      else if check_paid && src = booth then
        match lookupD parent_paid player with
        | none => some err_not_paid
        | some booths => if booth ∈ booths then none else some err_not_paid
      else none

/-! ### Fork choice (lines 163-168) -/

/-- `_update_head` (lines 163-168).  The code indexes `chain_lengths`
directly; in every reachable state both `new_block_hash` and `head` are
present, so the lookups are written with a default of 0. -/
def update_head (s : BlockChain) (new_block_hash : Nat) : BlockChain :=
  let new_length := getD s.chain_lengths new_block_hash 0
  let head_length := getD s.chain_lengths s.head 0
  if head_length < new_length ∨ (new_length = head_length ∧ new_block_hash < s.head) then
    { s with head := new_block_hash }
  else s

/-! ### Block ingestion (lines 213-259) -/

/-- The state mutation of a successful admission (lines 243-252): store the
block, record its chain length, link it as a child of its parent, and run the
fork-choice rule. -/
def admit_state (s : BlockChain) (block_hash : Nat) (block : Block) : BlockChain :=
  let old := block.change.old
  let s1 := { s with blocks := insertD s.blocks block_hash block }
  let parent_length := getD s1.chain_lengths old 0
  let s2 := { s1 with chain_lengths := insertD s1.chain_lengths block_hash (parent_length + 1) }
  let s3 := { s2 with children := insertD s2.children old (add_to_set (getD s2.children old []) block_hash) }
  update_head s3 block_hash

/-- The state mutation of the missing-parent branch (lines 233-235): append
the block to `pending[old]`. -/
def pend_state (s : BlockChain) (block : Block) : BlockChain :=
  { s with pending := insertD s.pending block.change.old (getD s.pending block.change.old [] ++ [block]) }

/-- The `for pending_block in pending_blocks: await self.add_block(...)` drain
loop (lines 258-259), parametrised by the recursive call.  Messages are
concatenated in emission order. -/
def drain_pending (f : BlockChain → Block → Option (BlockChain × List Nat)) :
    BlockChain → List Block → Option (BlockChain × List Nat)
  | s, [] => some (s, [])
  | s, blk :: rest =>
    match f s blk with
    | none => none
    | some st1 =>
      match drain_pending f st1.1 rest with
      | none => none
      | some st2 => some (st2.1, st1.2 ++ st2.2)

/-- One unfolding of `add_block` (lines 213-259), parametrised by the
function used for the recursive calls on drained pending blocks. -/
def add_block_go (hashChange : Change → Nat)
    (f : BlockChain → Block → Option (BlockChain × List Nat))
    (s : BlockChain) (block : Block) : Option (BlockChain × List Nat) :=
  let change := block.change
  let old := change.old
  let block_hash := hashChange change
  if (lookupD s.blocks block_hash).isSome then some (s, [])
  else if !verify_signature hashChange s.users block then some (s, [])
  else if old ≠ ROOT_HASH ∧ (lookupD s.blocks old).isNone then
    some (pend_state s block, [old])
  else
    match is_valid_change s (s.blocks.length + 1) change true with
    | none => none
    | some (some _) => some (s, [])
    | some none =>
      let s4 := admit_state s block_hash block
      match lookupD s4.pending block_hash with
      | none => some (s4, [])
      | some pending_blocks =>
        drain_pending f { s4 with pending := eraseD s4.pending block_hash } pending_blocks

/-- The state from which the pending drain of lines 254-259 starts: the
admitted state with the drained key removed from `pending`. -/
def drain_start (s : BlockChain) (block_hash : Nat) (block : Block) : BlockChain :=
  { admit_state s block_hash block with
      pending := eraseD (admit_state s block_hash block).pending block_hash }

/-- `add_block` (lines 213-259) with explicit fuel bounding the depth of the
recursive pending-buffer drain.  `none` means the fuel was insufficient or an
internal computation raised; for reachable states,
`total_pending s + 1` fuel is proved sufficient. -/
def add_block (hashChange : Change → Nat) : Nat → BlockChain → Block → Option (BlockChain × List Nat)
  | 0, _, _ => none
  | fuel + 1, s, block => add_block_go hashChange (add_block hashChange fuel) s block

/-- Total number of blocks parked in the pending buffer. -/
def total_pending (s : BlockChain) : Nat :=
  (s.pending.map (fun kv => kv.2.length)).sum

/-! ### Queries (lines 261-300) -/

/-- `get_head_hash` (lines 261-263). -/
def get_head_hash (s : BlockChain) : Nat := s.head

/-- `get_accounts` (lines 265-271): balances at the head, omitting users at
exactly 20. -/
def get_accounts (s : BlockChain) : Option (List (String × Int)) :=
  match compute_balances s (s.blocks.length + 1) s.head with
  | none => none
  | some all_balances => some (all_balances.filter (fun kv => kv.2 ≠ 20))

/-- `get_chain` (lines 273-278). -/
def get_chain (s : BlockChain) : List (Nat × Block) := s.blocks

/-- `get_block` (lines 280-286). -/
def get_block (s : BlockChain) (blockid : Nat) : Option Block :=
  lookupD s.blocks blockid

/-- The `while ptr != ROOT_HASH` walk of `is_live` (lines 296-300), with
fuel.  `none` models the `TypeError` raised when the walk hits a hash that is
neither `ROOT_HASH` nor stored, or nontermination. -/
def is_live_walk (s : BlockChain) : Nat → Nat → Nat → Option Bool
  | 0, _, _ => none
  | fuel + 1, ptr, blockid =>
    if ptr = ROOT_HASH then some false
    else if ptr = blockid then some true
    else
      match lookupD s.blocks ptr with
      | none => none
      | some block => is_live_walk s fuel block.change.old blockid

/-- `is_live` (lines 288-300): `False` when the block is unknown, otherwise
walk `old`-links from the head. -/
def is_live (s : BlockChain) (blockid : Nat) : Option Bool :=
  if (lookupD s.blocks blockid).isNone then some false
  else is_live_walk s (s.blocks.length + 1) s.head blockid

/-! ### Reachable states and the ancestor relation -/

/-- States reachable from a freshly initialized `BlockChain` after its
startup `add_users` bulk load, by any sequence of (terminating) `add_block`
calls. -/
inductive Reachable (hashChange : Change → Nat) : BlockChain → Prop where
  | init (userdata : List (String × UserData)) :
      Reachable hashChange (add_users blockchain_init userdata)
  | step (s s' : BlockChain) (block : Block) (fuel : Nat) (msgs : List Nat) :
      Reachable hashChange s →
      add_block hashChange fuel s block = some (s', msgs) →
      Reachable hashChange s'

/-- `Reaches s a b`: hash `b` is on the `old`-link chain starting at `a`
(inclusive) and walking through stored blocks. -/
inductive Reaches (s : BlockChain) : Nat → Nat → Prop where
  | refl (h : Nat) : Reaches s h h
  | step (h t : Nat) (block : Block) :
      lookupD s.blocks h = some block →
      Reaches s block.change.old t →
      Reaches s h t

/-! ### Concrete instances used to witness the theorems -/

/-- A concrete stand-in for the SHA-256 change hash: always odd, hence never
equal to the (even) `ROOT_HASH`. -/
def demoHash (c : Change) : Nat := 2 * c.n.natAbs + 1

/-- Two users: player `p` (public modulus 10) and booth `q_b` (public
modulus 8).  The moduli are chosen so that `x^65537 ≡ x (mod m)` for the
demo hash values, making `signature := hash` a valid RSA signature. -/
def demo_users : List (String × UserData) :=
  [ ( "p", { key := some 10 } ), ( "q_b", { key := some 8 } ) ]

def demo_change_a : Change :=
  { old := ROOT_HASH, src := "p", dst := "q_b", n := 2, memo := "m" }

def demo_block_a : Block := { change := demo_change_a, signature := 5 }

def demo_change_b : Change :=
  { old := demoHash demo_change_a, src := "q_b", dst := "p", n := 3, memo := "m2" }

def demo_block_b : Block := { change := demo_change_b, signature := 7 }

def demo_change_c : Change :=
  { old := demoHash demo_change_b, src := "p", dst := "q_b", n := 4, memo := "m3" }

def demo_block_c : Block := { change := demo_change_c, signature := 9 }

/-- The freshly initialized engine with the demo users loaded. -/
def demo_s0 : BlockChain := add_users blockchain_init demo_users

/-- The engine state after admitting `demo_block_a` (hash 5). -/
def demo_s1 : BlockChain :=
  { blocks := [(5, demo_block_a)]
    users := demo_users
    head := 5
    chain_lengths := [(ROOT_HASH, 0), (5, 1)]
    children := [(ROOT_HASH, [5])]
    pending := [] }

/-- The engine's internal well-formedness invariant, maintained by
`add_block` from the initial state (proved below).  It packages the block
store, chain-length, head and pending-buffer consistency facts that the
claims refer to. -/
structure Inv (hashChange : Change → Nat) (s : BlockChain) : Prop where
  users_nodup : (s.users.map Prod.fst).Nodup
  blocks_nodup : (s.blocks.map Prod.fst).Nodup
  pending_nodup : (s.pending.map Prod.fst).Nodup
  root_len : lookupD s.chain_lengths ROOT_HASH = some 0
  blocks_hash : ∀ h b, lookupD s.blocks h = some b → hashChange b.change = h
  parent_ok : ∀ h b, lookupD s.blocks h = some b →
    b.change.old = ROOT_HASH ∨ (lookupD s.blocks b.change.old).isSome
  len_ok : ∀ h b, lookupD s.blocks h = some b →
    lookupD s.chain_lengths h = some (getD s.chain_lengths b.change.old 0 + 1)
  len_bound : ∀ h L, lookupD s.chain_lengths h = some L → L ≤ s.blocks.length
  users_ok : ∀ h b, lookupD s.blocks h = some b →
    (lookupD s.users b.change.src).isSome ∧ (lookupD s.users b.change.dst).isSome
  head_ok : s.head = ROOT_HASH ∨ (lookupD s.blocks s.head).isSome
  head_max : ∀ h, (lookupD s.blocks h).isSome →
    getD s.chain_lengths h 0 < getD s.chain_lengths s.head 0 ∨
      (getD s.chain_lengths h 0 = getD s.chain_lengths s.head 0 ∧ s.head ≤ h)
  head_root : s.blocks = [] → s.head = ROOT_HASH
  pending_ok : ∀ k l, lookupD s.pending k = some l → ∀ b ∈ l, b.change.old = k

/-! ### Offer traces (fork-choice determinism) -/

/-- A successful sequence of `add_block` calls: offering the blocks of `L` in
order, each call returning normally (with whatever recursion fuel made its
pending drain terminate), takes the engine from `s` to `s'`. -/
inductive RunList (hashChange : Change → Nat) : BlockChain → List Block → BlockChain → Prop where
  | nil (s : BlockChain) : RunList hashChange s [] s
  | cons (s s1 s' : BlockChain) (b : Block) (l : List Block) (fuel : Nat) (msgs : List Nat) :
      add_block hashChange fuel s b = some (s1, msgs) →
      RunList hashChange s1 l s' →
      RunList hashChange s (b :: l) s'

/-- Executable runner: offer the blocks of a list in order, giving each
`add_block` call the fuel `total_pending s + 1` that suffices on reachable
states. -/
def runL (hashChange : Change → Nat) : BlockChain → List Block → Option BlockChain
  | s, [] => some s
  | s, b :: rest =>
    match add_block hashChange (total_pending s + 1) s b with
    | none => none
    | some st => runL hashChange st.1 rest

/-- The block sits in the pending buffer (necessarily under its parent
hash). -/
def pend_mem (s : BlockChain) (b : Block) : Prop :=
  ∃ bs, lookupD s.pending b.change.old = some bs ∧ b ∈ bs

/-- The engine has passed final judgement on an offered block: it is stored,
or its parent is resolved and the semantic validator rejects it. -/
def decided (hashChange : Change → Nat) (s : BlockChain) (b : Block) : Prop :=
  (lookupD s.blocks (hashChange b.change)).isSome ∨
    ((b.change.old = ROOT_HASH ∨ (lookupD s.blocks b.change.old).isSome) ∧
      ∃ e, is_valid_change s (s.blocks.length + 1) b.change true = some (some e))

/-- Every correctly signed block of the offered list `P` is decided or still
parked, except possibly for the blocks of the worklist `E` currently being
re-offered by a pending drain. -/
def settled_except (hashChange : Change → Nat) (P E : List Block) (s : BlockChain) : Prop :=
  ∀ b ∈ P, verify_signature hashChange s.users b = true →
    decided hashChange s b ∨ pend_mem s b ∨ b ∈ E

/-- Invariant tying a state to the list `P` of blocks offered so far: stored
blocks are offered, correctly signed and semantically valid against their
stored parent chain; parked blocks are offered and correctly signed. -/
structure OfferInv (hashChange : Change → Nat) (P : List Block) (s : BlockChain) : Prop where
  inv : Inv hashChange s
  store_mem : ∀ h b, lookupD s.blocks h = some b → b ∈ P
  store_sig : ∀ h b, lookupD s.blocks h = some b →
      verify_signature hashChange s.users b = true
  store_val : ∀ h b, lookupD s.blocks h = some b →
      is_valid_change s (s.blocks.length + 1) b.change true = some none
  pend_sound : ∀ k bs, lookupD s.pending k = some bs → ∀ b ∈ bs,
      b ∈ P ∧ verify_signature hashChange s.users b = true

/-! ### A concrete injective change hash (fork-choice witness) -/

/-- Injective encoding of a list of naturals. -/
def encodeList : List Nat → Nat
  | [] => 0
  | a :: rest => Nat.pair a (encodeList rest) + 1

/-- Injective encoding of a string via its character codes. -/
def encodeStr (s : String) : Nat :=
  encodeList (s.toList.map Char.toNat)

/-- Injective encoding of an integer. -/
def encodeInt (n : Int) : Nat :=
  n.natAbs * 2 + (if 0 ≤ n then 0 else 1)

/-- Injective encoding of a `Change`; the large `old` field is paired only
once to keep the encoding computable on concrete inputs. -/
def encodeChange (c : Change) : Nat :=
  Nat.pair c.old (Nat.pair (encodeStr c.src)
    (Nat.pair (encodeStr c.dst) (Nat.pair (encodeInt c.n) (encodeStr c.memo))))

/-- An injective stand-in for the SHA-256 change hash; always odd, hence
never equal to the (even) `ROOT_HASH`. -/
def injHash (c : Change) : Nat := 2 * encodeChange c + 1

def fc_change_a : Change :=
  { old := ROOT_HASH, src := "p", dst := "q_b", n := 2, memo := "w" }

def fc_change_b : Change :=
  { old := injHash fc_change_a, src := "q_b", dst := "p", n := 3, memo := "w2" }

def fc_block_a : Block := { change := fc_change_a, signature := injHash fc_change_a }

def fc_block_b : Block := { change := fc_change_b, signature := injHash fc_change_b }

/-- Users whose RSA keys make `fc_block_a` / `fc_block_b` verify: with
key `H + 1` and signature `H`, `H ^ 65537 ≡ H (mod H + 1)`. -/
def fc_users : List (String × UserData) :=
  [ ( "p", { key := some (injHash fc_change_a + 1) } ),
    ( "q_b", { key := some (injHash fc_change_b + 1) } ) ]

def fc_s0 : BlockChain := add_users blockchain_init fc_users

/-- Final state of the out-of-order run (`b` before its parent `a`). -/
def fc_run1 : BlockChain := (runL injHash fc_s0 [fc_block_b, fc_block_a]).getD blockchain_init

/-- Final state of the in-order run (`a` then `b`). -/
def fc_run2 : BlockChain := (runL injHash fc_s0 [fc_block_a, fc_block_b]).getD blockchain_init

/-! ## Association-list lemmas -/

section AListLemmas

variable {K : Type} {V : Type} [DecidableEq K]

theorem lookupD_insertD (l : List (K × V)) (k : K) (v : V) (k' : K) :
    lookupD (insertD l k v) k' = if k' = k then some v else lookupD l k' := by
  induction l with
  | nil =>
    by_cases h : k' = k
    · subst h; simp [insertD, lookupD]
    · simp [insertD, lookupD, h, Ne.symm h]
  | cons kv rest ih =>
    obtain ⟨k0, v0⟩ := kv
    by_cases h0 : k0 = k
    · subst h0
      by_cases h : k' = k0
      · subst h; simp [insertD, lookupD]
      · simp [insertD, lookupD, h, Ne.symm h]
    · by_cases h : k0 = k'
      · subst h
        have hk : ¬(k0 = k) := h0
        simp [insertD, if_neg h0, lookupD, Ne.symm hk]
      · simp [insertD, if_neg h0, lookupD, h, ih]

theorem lookupD_insertD_self (l : List (K × V)) (k : K) (v : V) :
    lookupD (insertD l k v) k = some v := by
  simp [lookupD_insertD]

theorem lookupD_insertD_ne (l : List (K × V)) (k : K) (v : V) (k' : K) (h : k' ≠ k) :
    lookupD (insertD l k v) k' = lookupD l k' := by
  simp [lookupD_insertD, h]

theorem lookupD_eraseD_ne (l : List (K × V)) (k k' : K) (h : k' ≠ k) :
    lookupD (eraseD l k) k' = lookupD l k' := by
  induction l with
  | nil => simp [eraseD]
  | cons kv rest ih =>
    obtain ⟨k0, v0⟩ := kv
    by_cases h0 : k0 = k
    · subst h0
      simp [eraseD, lookupD, Ne.symm h]
    · by_cases h1 : k0 = k'
      · subst h1
        simp [eraseD, lookupD, h0]
      · simp [eraseD, if_neg h0, lookupD, h1, ih]

theorem lookupD_eq_none_iff (l : List (K × V)) (k : K) :
    lookupD l k = none ↔ k ∉ l.map Prod.fst := by
  induction l with
  | nil => simp [lookupD]
  | cons kv rest ih =>
    obtain ⟨k0, v0⟩ := kv
    by_cases h : k0 = k
    · subst h; simp [lookupD]
    · have hk : k ≠ k0 := Ne.symm h
      simp [lookupD, h, ih, hk]

theorem lookupD_isSome_iff (l : List (K × V)) (k : K) :
    (lookupD l k).isSome ↔ k ∈ l.map Prod.fst := by
  rw [← Decidable.not_not (p := k ∈ l.map Prod.fst), ← lookupD_eq_none_iff]
  cases lookupD l k <;> simp

theorem lookupD_eraseD_self (l : List (K × V)) (k : K)
    (hnd : (l.map Prod.fst).Nodup) : lookupD (eraseD l k) k = none := by
  induction l with
  | nil => simp [eraseD, lookupD]
  | cons kv rest ih =>
    obtain ⟨k0, v0⟩ := kv
    simp only [List.map_cons, List.nodup_cons] at hnd
    by_cases h0 : k0 = k
    · subst h0
      simp only [eraseD, if_pos rfl]
      rw [lookupD_eq_none_iff]
      exact hnd.1
    · simp only [eraseD, if_neg h0, lookupD, if_neg h0]
      exact ih hnd.2

theorem keys_insertD_of_none (l : List (K × V)) (k : K) (v : V)
    (h : lookupD l k = none) :
    (insertD l k v).map Prod.fst = l.map Prod.fst ++ [k] := by
  induction l with
  | nil => simp [insertD]
  | cons kv rest ih =>
    obtain ⟨k0, v0⟩ := kv
    simp only [lookupD] at h
    by_cases h0 : k0 = k
    · simp [h0] at h
    · simp only [insertD, if_neg h0, List.map_cons]
      simp only [if_neg h0] at h
      simp [ih h]

theorem keys_insertD_of_isSome (l : List (K × V)) (k : K) (v : V)
    (h : (lookupD l k).isSome) :
    (insertD l k v).map Prod.fst = l.map Prod.fst := by
  induction l with
  | nil => simp [lookupD] at h
  | cons kv rest ih =>
    obtain ⟨k0, v0⟩ := kv
    simp only [lookupD] at h
    by_cases h0 : k0 = k
    · simp [insertD, h0]
    · simp only [if_neg h0] at h
      simp [insertD, if_neg h0, ih h]

theorem nodup_keys_insertD (l : List (K × V)) (k : K) (v : V)
    (hnd : (l.map Prod.fst).Nodup) :
    ((insertD l k v).map Prod.fst).Nodup := by
  rcases hl : lookupD l k with _ | v0
  · rw [keys_insertD_of_none l k v hl]
    rw [lookupD_eq_none_iff] at hl
    simp [List.nodup_append, hnd, hl]
  · rw [keys_insertD_of_isSome l k v (by simp [hl])]
    exact hnd

theorem length_insertD_of_none (l : List (K × V)) (k : K) (v : V)
    (h : lookupD l k = none) : (insertD l k v).length = l.length + 1 := by
  have := keys_insertD_of_none l k v h
  have h1 : ((insertD l k v).map Prod.fst).length = (l.map Prod.fst ++ [k]).length := by
    rw [this]
  simpa using h1

theorem sum_insertD (l : List (K × Int)) (k : K) (v v0 : Int)
    (h : lookupD l k = some v0) :
    ((insertD l k v).map Prod.snd).sum = (l.map Prod.snd).sum - v0 + v := by
  induction l with
  | nil => simp [lookupD] at h
  | cons kv rest ih =>
    obtain ⟨k0, v1⟩ := kv
    simp only [lookupD] at h
    by_cases h0 : k0 = k
    · simp only [if_pos h0] at h
      cases h
      simp [insertD, h0]
      ring
    · simp only [if_neg h0] at h
      simp only [insertD, if_neg h0, List.map_cons, List.sum_cons, ih h]
      ring

theorem lookupD_map_const {W : Type} (l : List (K × V)) (k : K) (c : W) :
    lookupD (l.map fun kv => (kv.1, c)) k = (lookupD l k).map fun _ => c := by
  induction l with
  | nil => simp [lookupD]
  | cons kv rest ih =>
    obtain ⟨k0, v0⟩ := kv
    by_cases h : k0 = k
    · simp [lookupD, h]
    · simp [lookupD, h, ih]

omit [DecidableEq K] in
theorem sum_map_const20 (l : List (K × V)) :
    (((l.map fun kv => (kv.1, (20 : Int))).map Prod.snd)).sum = 20 * (l.length : Int) := by
  induction l with
  | nil => simp
  | cons kv rest ih =>
    simp only [List.map_cons, List.sum_cons, List.length_cons]
    rw [ih]
    push_cast
    ring

theorem lookupD_filter_snd (l : List (K × V)) (p : V → Bool) (k : K)
    (hnd : (l.map Prod.fst).Nodup) :
    lookupD (l.filter fun kv => p kv.2) k
      = (lookupD l k).bind fun v => if p v then some v else none := by
  induction l with
  | nil => simp [lookupD]
  | cons kv rest ih =>
    obtain ⟨k0, v0⟩ := kv
    simp only [List.map_cons, List.nodup_cons] at hnd
    by_cases h : k0 = k
    · subst h
      rcases hp : p v0 with _ | _
      · simp only [List.filter_cons, hp, lookupD, if_pos rfl, Option.bind]
        have hnone : lookupD (rest.filter fun kv => p kv.2) k0 = none := by
          rw [lookupD_eq_none_iff]
          intro hmem
          exact hnd.1 (by
            have : (rest.filter fun kv => p kv.2).map Prod.fst ⊆ rest.map Prod.fst := by
              intro x hx
              simp only [List.mem_map] at hx ⊢
              obtain ⟨y, hy, hxy⟩ := hx
              exact ⟨y, List.mem_of_mem_filter hy, hxy⟩
            exact this hmem)
        simp [hnone, hp]
      · simp [List.filter_cons, hp, lookupD]
    · rcases hp : p v0 with _ | _
      · simp only [List.filter_cons, hp]
        simp only [lookupD, if_neg h]
        exact ih hnd.2
      · simp only [List.filter_cons, hp, lookupD, if_neg h]
        exact ih hnd.2

theorem sumLens_insertD_append {B : Type} (l : List (K × List B)) (k : K) (b : B) :
    ((insertD l k (getD l k [] ++ [b])).map fun kv => kv.2.length).sum
      = ((l.map fun kv => kv.2.length)).sum + 1 := by
  induction l with
  | nil => simp [insertD, getD, lookupD]
  | cons kv rest ih =>
    obtain ⟨k0, v0⟩ := kv
    by_cases h : k0 = k
    · subst h
      simp [insertD, getD, lookupD]
      ring
    · simp only [insertD, if_neg h, List.map_cons, List.sum_cons]
      have : getD ((k0, v0) :: rest) k [] = getD rest k [] := by
        simp [getD, lookupD, h]
      rw [this]
      rw [ih]
      ring

theorem sumLens_eraseD {B : Type} (l : List (K × List B)) (k : K) :
    ((eraseD l k).map fun kv => kv.2.length).sum + (getD l k []).length
      = ((l.map fun kv => kv.2.length)).sum := by
  induction l with
  | nil => simp [eraseD, getD, lookupD]
  | cons kv rest ih =>
    obtain ⟨k0, v0⟩ := kv
    by_cases h : k0 = k
    · subst h
      simp [eraseD, getD, lookupD]
      omega
    · simp only [eraseD, if_neg h, List.map_cons, List.sum_cons]
      have : getD ((k0, v0) :: rest) k [] = getD rest k [] := by
        simp [getD, lookupD, h]
      rw [this]
      omega

theorem keys_eraseD_sublist (l : List (K × V)) (k : K) :
    ((eraseD l k).map Prod.fst).Sublist (l.map Prod.fst) := by
  induction l with
  | nil => simp [eraseD]
  | cons kv rest ih =>
    obtain ⟨k0, v0⟩ := kv
    by_cases h : k0 = k
    · subst h
      simp only [eraseD, if_pos rfl, List.map_cons]
      exact (List.Sublist.refl _).cons _
    · simp only [eraseD, if_neg h, List.map_cons]
      exact ih.cons₂ _

theorem nodup_keys_eraseD (l : List (K × V)) (k : K)
    (hnd : (l.map Prod.fst).Nodup) : ((eraseD l k).map Prod.fst).Nodup :=
  hnd.sublist (keys_eraseD_sublist l k)

theorem nodup_keys_foldl_insertD (ud : List (K × V)) :
    ∀ u : List (K × V), (u.map Prod.fst).Nodup →
      ((ud.foldl (fun u kv => insertD u kv.1 kv.2) u).map Prod.fst).Nodup := by
  induction ud with
  | nil => intro u hu; simpa using hu
  | cons kv rest ih =>
    intro u hu
    exact ih _ (nodup_keys_insertD u kv.1 kv.2 hu)

theorem insertD_ne_nil (l : List (K × V)) (k : K) (v : V) : insertD l k v ≠ [] := by
  cases l with
  | nil => simp [insertD]
  | cons kv rest =>
    obtain ⟨k0, v0⟩ := kv
    by_cases h : k0 = k <;> simp [insertD, h]

end AListLemmas

/-! ## Basic state lemmas -/

theorem add_users_init_nodup (ud : List (String × UserData)) :
    ((add_users blockchain_init ud).users.map Prod.fst).Nodup :=
  nodup_keys_foldl_insertD ud [] (by simp)

theorem inv_init (hashChange : Change → Nat) (ud : List (String × UserData)) :
    Inv hashChange (add_users blockchain_init ud) := by
  refine ⟨add_users_init_nodup ud, ?_, ?_, ?_, ?_, ?_, ?_, ?_, ?_, ?_, ?_, ?_, ?_⟩
  · simp [add_users, blockchain_init]
  · simp [add_users, blockchain_init]
  · simp [add_users, blockchain_init, lookupD]
  · intro h b hb
    simp [add_users, blockchain_init, lookupD] at hb
  · intro h b hb
    simp [add_users, blockchain_init, lookupD] at hb
  · intro h b hb
    simp [add_users, blockchain_init, lookupD] at hb
  · intro h L hL
    simp only [add_users, blockchain_init] at hL ⊢
    simp only [lookupD] at hL
    by_cases hr : ROOT_HASH = h
    · rw [if_pos hr] at hL
      injection hL with h2
      simp [← h2]
    · rw [if_neg hr] at hL
      cases hL
  · intro h b hb
    simp [add_users, blockchain_init, lookupD] at hb
  · exact Or.inl rfl
  · intro h hh
    simp [add_users, blockchain_init, lookupD] at hh
  · intro _
    rfl
  · intro k l hk
    simp [add_users, blockchain_init, lookupD] at hk

theorem root_not_stored {hashChange : Change → Nat} {s : BlockChain}
    (HR : ∀ c, hashChange c ≠ ROOT_HASH) (hInv : Inv hashChange s) :
    lookupD s.blocks ROOT_HASH = none := by
  rcases hl : lookupD s.blocks ROOT_HASH with _ | b
  · rfl
  · exact absurd (hInv.blocks_hash _ _ hl) (HR b.change)

theorem stored_ne_root {hashChange : Change → Nat} {s : BlockChain} {h : Nat} {b : Block}
    (HR : ∀ c, hashChange c ≠ ROOT_HASH) (hInv : Inv hashChange s)
    (hb : lookupD s.blocks h = some b) : h ≠ ROOT_HASH := by
  intro heq
  rw [heq, root_not_stored HR hInv] at hb
  cases hb

theorem update_head_blocks (s : BlockChain) (h : Nat) :
    (update_head s h).blocks = s.blocks := by
  simp only [update_head]
  split <;> rfl

theorem update_head_users (s : BlockChain) (h : Nat) :
    (update_head s h).users = s.users := by
  simp only [update_head]
  split <;> rfl

theorem update_head_chain_lengths (s : BlockChain) (h : Nat) :
    (update_head s h).chain_lengths = s.chain_lengths := by
  simp only [update_head]
  split <;> rfl

theorem update_head_children (s : BlockChain) (h : Nat) :
    (update_head s h).children = s.children := by
  simp only [update_head]
  split <;> rfl

theorem update_head_pending (s : BlockChain) (h : Nat) :
    (update_head s h).pending = s.pending := by
  simp only [update_head]
  split <;> rfl

theorem update_head_head (s : BlockChain) (h : Nat) :
    (update_head s h).head =
      if getD s.chain_lengths s.head 0 < getD s.chain_lengths h 0 ∨
          (getD s.chain_lengths h 0 = getD s.chain_lengths s.head 0 ∧ h < s.head)
      then h else s.head := by
  simp only [update_head]
  split <;> rfl

theorem admit_state_blocks (s : BlockChain) (h : Nat) (b : Block) :
    (admit_state s h b).blocks = insertD s.blocks h b := by
  simp [admit_state, update_head_blocks]

theorem admit_state_users (s : BlockChain) (h : Nat) (b : Block) :
    (admit_state s h b).users = s.users := by
  simp [admit_state, update_head_users]

theorem admit_state_chain_lengths (s : BlockChain) (h : Nat) (b : Block) :
    (admit_state s h b).chain_lengths
      = insertD s.chain_lengths h (getD s.chain_lengths b.change.old 0 + 1) := by
  simp [admit_state, update_head_chain_lengths]

theorem admit_state_children (s : BlockChain) (h : Nat) (b : Block) :
    (admit_state s h b).children
      = insertD s.children b.change.old (add_to_set (getD s.children b.change.old []) h) := by
  simp [admit_state, update_head_children]

theorem admit_state_pending (s : BlockChain) (h : Nat) (b : Block) :
    (admit_state s h b).pending = s.pending := by
  simp [admit_state, update_head_pending]

theorem add_block_zero (hashChange : Change → Nat) (s : BlockChain) (b : Block) :
    add_block hashChange 0 s b = none := rfl

theorem add_block_succ (hashChange : Change → Nat) (fuel : Nat) (s : BlockChain) (b : Block) :
    add_block hashChange (fuel + 1) s b
      = add_block_go hashChange (add_block hashChange fuel) s b := rfl

/-- A change accepted by the validator names two registered users. -/
theorem is_valid_change_users {s : BlockChain} {fuel : Nat} {c : Change} {cp : Bool}
    (h : is_valid_change s fuel c cp = some none) :
    (lookupD s.users c.src).isSome ∧ (lookupD s.users c.dst).isSome := by
  unfold is_valid_change at h
  by_cases h1 : (lookupD s.users c.src).isNone
  · rw [if_pos h1] at h
    simp at h
  · rw [if_neg h1] at h
    by_cases h2 : (lookupD s.users c.dst).isNone
    · rw [if_pos h2] at h
      simp at h
    · constructor
      · cases hx : lookupD s.users c.src with
        | none => exact absurd (by simp [hx]) h1
        | some u => simp
      · cases hx : lookupD s.users c.dst with
        | none => exact absurd (by simp [hx]) h2
        | some u => simp

/-- `compute_paid_status` is monotone in the fuel. -/
theorem compute_paid_status_mono {s : BlockChain} :
    ∀ fuel fuel' hh r, fuel ≤ fuel' → compute_paid_status s fuel hh = some r →
      compute_paid_status s fuel' hh = some r := by
  intro fuel
  induction fuel with
  | zero =>
    intro fuel' hh r _ hc
    simp [compute_paid_status] at hc
  | succ fuel ih =>
    intro fuel' hh r hle hc
    obtain ⟨f2, rfl⟩ : ∃ f2, fuel' = f2 + 1 := ⟨fuel' - 1, by omega⟩
    by_cases hr : hh = ROOT_HASH
    · simp [compute_paid_status, hr] at hc ⊢
      exact hc
    · cases hb : lookupD s.blocks hh with
      | none => simp [compute_paid_status, hr, hb] at hc
      | some b =>
        cases hp : compute_paid_status s fuel b.change.old with
        | none => simp [compute_paid_status, hr, hb, hp] at hc
        | some pp =>
          have hp' := ih f2 b.change.old pp (by omega) hp
          simp [compute_paid_status, hr, hb, hp] at hc
          simp [compute_paid_status, hr, hb, hp', hc]

/-- In an invariant-satisfying state, the paid-status walk from `ROOT_HASH`
or any stored block terminates once the fuel exceeds the chain length. -/
theorem compute_paid_status_total {hashChange : Change → Nat} {s : BlockChain}
    (hInv : Inv hashChange s) :
    ∀ fuel hh, (hh = ROOT_HASH ∨ (lookupD s.blocks hh).isSome) →
      getD s.chain_lengths hh 0 < fuel → (compute_paid_status s fuel hh).isSome := by
  intro fuel
  induction fuel with
  | zero => intro hh _ hlt; omega
  | succ fuel ih =>
    intro hh hsrc hlt
    by_cases hr : hh = ROOT_HASH
    · simp [compute_paid_status, hr]
    · rcases hsrc with rfl | hs
      · exact absurd rfl hr
      · obtain ⟨b, hb⟩ := Option.isSome_iff_exists.mp hs
        have hpar := hInv.parent_ok hh b hb
        have hlen := hInv.len_ok hh b hb
        have hgd : getD s.chain_lengths hh 0 = getD s.chain_lengths b.change.old 0 + 1 := by
          simp [getD, hlen]
        have hrec := ih b.change.old hpar (by omega)
        obtain ⟨pp, hpp⟩ := Option.isSome_iff_exists.mp hrec
        simp [compute_paid_status, hr, hb, hpp]

/-- The validator returns normally whenever the paid-status computation it
may invoke does. -/
theorem is_valid_change_isSome {s : BlockChain} {fuel : Nat} {c : Change} {cp : Bool}
    (hp : (compute_paid_status s fuel c.old).isSome) :
    (is_valid_change s fuel c cp).isSome := by
  obtain ⟨pp, hpp⟩ := Option.isSome_iff_exists.mp hp
  simp only [is_valid_change, hpp]
  repeat' split
  all_goals simp

/-- Parking a block in the pending buffer preserves the invariant. -/
theorem inv_pend_state {hashChange : Change → Nat} {s : BlockChain}
    (hInv : Inv hashChange s) (block : Block) :
    Inv hashChange (pend_state s block) := by
  obtain ⟨h1, h2, h3, h4, h5, h6, h7, h8, h9, h10, h11, h12, h13⟩ := hInv
  refine ⟨h1, h2, ?_, h4, h5, h6, h7, h8, h9, h10, h11, h12, ?_⟩
  · exact nodup_keys_insertD _ _ _ h3
  · intro k l hk b hb
    rw [pend_state] at hk
    simp only at hk
    rw [lookupD_insertD] at hk
    by_cases hko : k = block.change.old
    · rw [if_pos hko] at hk
      injection hk with hk
      subst hk
      rcases List.mem_append.mp hb with hb1 | hb2
      · cases hg : lookupD s.pending block.change.old with
        | none => rw [getD, hg] at hb1; simp at hb1
        | some l0 =>
          rw [getD, hg] at hb1
          simp only [Option.getD_some] at hb1
          rw [hko]
          exact h13 block.change.old l0 hg b hb1
      · simp at hb2
        subst hb2
        exact hko.symm
    · rw [if_neg hko] at hk
      exact h13 k l hk b hb

/-- Deleting a pending entry preserves the invariant. -/
theorem inv_erase_pending {hashChange : Change → Nat} {s : BlockChain}
    (hInv : Inv hashChange s) (k : Nat) :
    Inv hashChange { s with pending := eraseD s.pending k } := by
  obtain ⟨h1, h2, h3, h4, h5, h6, h7, h8, h9, h10, h11, h12, h13⟩ := hInv
  refine ⟨h1, h2, ?_, h4, h5, h6, h7, h8, h9, h10, h11, h12, ?_⟩
  · exact nodup_keys_eraseD _ _ h3
  · intro k2 l hk2 b hb
    simp only at hk2
    by_cases hkk : k2 = k
    · rw [hkk, lookupD_eraseD_self s.pending k h3] at hk2
      cases hk2
    · rw [lookupD_eraseD_ne s.pending k k2 hkk] at hk2
      exact h13 k2 l hk2 b hb

/-- Admitting a fresh, parent-known, semantically valid block preserves the
invariant. -/
theorem inv_admit_state {hashChange : Change → Nat} {s : BlockChain}
    (HR : ∀ c, hashChange c ≠ ROOT_HASH) (hInv : Inv hashChange s) (block : Block)
    (hnew : lookupD s.blocks (hashChange block.change) = none)
    (hpar : block.change.old = ROOT_HASH ∨ (lookupD s.blocks block.change.old).isSome)
    (hval : is_valid_change s (s.blocks.length + 1) block.change true = some none) :
    Inv hashChange (admit_state s (hashChange block.change) block) := by
  set h := hashChange block.change with hh
  have hne_root : h ≠ ROOT_HASH := HR block.change
  have hold_ne_h : block.change.old ≠ h := by
    rcases hpar with hro | hs
    · rw [hro]; exact Ne.symm hne_root
    · intro he
      rw [he, hnew] at hs
      simp at hs
  have hheadne : s.head ≠ h := by
    rcases hInv.head_ok with hr | hs
    · rw [hr]; exact Ne.symm hne_root
    · intro he
      rw [he, hnew] at hs
      simp at hs
  have hblocks := admit_state_blocks s h block
  have hcl := admit_state_chain_lengths s h block
  have husers := admit_state_users s h block
  have hpend := admit_state_pending s h block
  have e1 : getD (insertD s.chain_lengths h (getD s.chain_lengths block.change.old 0 + 1)) h 0
      = getD s.chain_lengths block.change.old 0 + 1 := by
    simp [getD, lookupD_insertD_self]
  have e2 : ∀ x, x ≠ h →
      getD (insertD s.chain_lengths h (getD s.chain_lengths block.change.old 0 + 1)) x 0
        = getD s.chain_lengths x 0 := by
    intro x hx
    simp [getD, lookupD_insertD_ne _ _ _ _ hx]
  have hpl_bound : getD s.chain_lengths block.change.old 0 ≤ s.blocks.length := by
    cases hL : lookupD s.chain_lengths block.change.old with
    | none => simp [getD, hL]
    | some L0 =>
      have := hInv.len_bound _ _ hL
      simp [getD, hL]
      omega
  have hadmit_head : (admit_state s h block).head =
      if getD s.chain_lengths s.head 0 < getD s.chain_lengths block.change.old 0 + 1
          ∨ (getD s.chain_lengths block.change.old 0 + 1 = getD s.chain_lengths s.head 0
              ∧ h < s.head)
      then h else s.head := by
    show (update_head _ h).head = _
    rw [update_head_head]
    simp only []
    rw [e1, e2 s.head hheadne]
  refine ⟨?_, ?_, ?_, ?_, ?_, ?_, ?_, ?_, ?_, ?_, ?_, ?_, ?_⟩
  · rw [husers]; exact hInv.users_nodup
  · rw [hblocks]; exact nodup_keys_insertD _ _ _ hInv.blocks_nodup
  · rw [hpend]; exact hInv.pending_nodup
  · rw [hcl, lookupD_insertD_ne _ _ _ _ (Ne.symm hne_root)]
    exact hInv.root_len
  · intro x bx hx
    rw [hblocks, lookupD_insertD] at hx
    by_cases hxh : x = h
    · rw [if_pos hxh] at hx
      injection hx with hx
      rw [← hx, hxh]
    · rw [if_neg hxh] at hx
      exact hInv.blocks_hash x bx hx
  · intro x bx hx
    rw [hblocks, lookupD_insertD] at hx
    rw [hblocks]
    by_cases hxh : x = h
    · rw [if_pos hxh] at hx
      injection hx with hx
      subst hx
      rcases hpar with hro | hs
      · exact Or.inl hro
      · right
        rw [lookupD_insertD, if_neg hold_ne_h]
        exact hs
    · rw [if_neg hxh] at hx
      rcases hInv.parent_ok x bx hx with hro | hs
      · exact Or.inl hro
      · right
        rw [lookupD_insertD]
        by_cases hbo : bx.change.old = h
        · simp [hbo]
        · rw [if_neg hbo]
          exact hs
  · intro x bx hx
    rw [hblocks, lookupD_insertD] at hx
    rw [hcl]
    by_cases hxh : x = h
    · rw [if_pos hxh] at hx
      injection hx with hx
      subst hx
      rw [hxh, lookupD_insertD_self, e2 block.change.old hold_ne_h]
    · rw [if_neg hxh] at hx
      have hbo_ne : bx.change.old ≠ h := by
        rcases hInv.parent_ok x bx hx with hro | hs
        · rw [hro]; exact Ne.symm hne_root
        · intro he
          rw [he, hnew] at hs
          simp at hs
      rw [lookupD_insertD_ne _ _ _ _ hxh, e2 bx.change.old hbo_ne]
      exact hInv.len_ok x bx hx
  · intro x L hx
    rw [hcl, lookupD_insertD] at hx
    rw [hblocks, length_insertD_of_none _ _ _ hnew]
    by_cases hxh : x = h
    · rw [if_pos hxh] at hx
      injection hx with hx
      omega
    · rw [if_neg hxh] at hx
      have := hInv.len_bound x L hx
      omega
  · intro x bx hx
    rw [hblocks, lookupD_insertD] at hx
    rw [husers]
    by_cases hxh : x = h
    · rw [if_pos hxh] at hx
      injection hx with hx
      subst hx
      exact is_valid_change_users hval
    · rw [if_neg hxh] at hx
      exact hInv.users_ok x bx hx
  · rw [hadmit_head, hblocks]
    split
    · right
      rw [lookupD_insertD_self]
      simp
    · rcases hInv.head_ok with hr | hs
      · exact Or.inl hr
      · right
        rw [lookupD_insertD, if_neg hheadne]
        exact hs
  · intro x hx
    rw [hblocks, lookupD_insertD] at hx
    rw [hadmit_head, hcl]
    by_cases hxh : x = h
    · subst hxh
      split
      · next hc =>
        right
        exact ⟨rfl, le_refl _⟩
      · next hc =>
        rw [e1, e2 s.head hheadne]
        by_cases hA : getD s.chain_lengths block.change.old 0 + 1 = getD s.chain_lengths s.head 0
        · right
          constructor
          · exact hA
          · omega
        · left
          omega
    · rw [if_neg hxh] at hx
      have hold := hInv.head_max x hx
      rw [e2 x hxh]
      split
      · next hc =>
        rw [e1]
        rcases hc with hc1 | hc2
        · left
          rcases hold with ho1 | ho2
          · omega
          · omega
        · rcases hold with ho1 | ho2
          · left
            omega
          · right
            constructor
            · omega
            · omega
      · next hc =>
        rw [e2 s.head hheadne]
        exact hold
  · intro hb
    rw [hblocks] at hb
    exact absurd hb (insertD_ne_nil _ _ _)
  · intro k l hk
    rw [hpend] at hk
    exact hInv.pending_ok k l hk

/-- Complete case analysis of one successful `add_block` call, mirroring the
control flow of lines 213-259. -/
theorem add_block_go_cases {hashChange : Change → Nat}
    {f : BlockChain → Block → Option (BlockChain × List Nat)}
    {s : BlockChain} {block : Block} {s' : BlockChain} {m : List Nat}
    (hres : add_block_go hashChange f s block = some (s', m)) :
    ((lookupD s.blocks (hashChange block.change)).isSome ∧ s' = s ∧ m = [])
    ∨ (lookupD s.blocks (hashChange block.change) = none
        ∧ verify_signature hashChange s.users block = false ∧ s' = s ∧ m = [])
    ∨ (lookupD s.blocks (hashChange block.change) = none
        ∧ verify_signature hashChange s.users block = true
        ∧ block.change.old ≠ ROOT_HASH ∧ lookupD s.blocks block.change.old = none
        ∧ s' = pend_state s block
        ∧ m = [block.change.old])
    ∨ (∃ e, lookupD s.blocks (hashChange block.change) = none
        ∧ verify_signature hashChange s.users block = true
        ∧ (block.change.old = ROOT_HASH ∨ (lookupD s.blocks block.change.old).isSome)
        ∧ is_valid_change s (s.blocks.length + 1) block.change true = some (some e)
        ∧ s' = s ∧ m = [])
    ∨ (lookupD s.blocks (hashChange block.change) = none
        ∧ verify_signature hashChange s.users block = true
        ∧ (block.change.old = ROOT_HASH ∨ (lookupD s.blocks block.change.old).isSome)
        ∧ is_valid_change s (s.blocks.length + 1) block.change true = some none
        ∧ ((lookupD s.pending (hashChange block.change) = none
              ∧ s' = admit_state s (hashChange block.change) block ∧ m = [])
            ∨ (∃ pb, lookupD s.pending (hashChange block.change) = some pb
                ∧ drain_pending f (drain_start s (hashChange block.change) block) pb
                  = some (s', m)))) := by
  unfold add_block_go at hres
  by_cases h1 : (lookupD s.blocks (hashChange block.change)).isSome
  · rw [if_pos h1] at hres
    obtain ⟨rfl, rfl⟩ : s = s' ∧ [] = m := by
      injection hres with h
      exact ⟨congrArg Prod.fst h, congrArg Prod.snd h⟩
    exact Or.inl ⟨h1, rfl, rfl⟩
  · rw [if_neg h1] at hres
    have h1n : lookupD s.blocks (hashChange block.change) = none :=
      Option.not_isSome_iff_eq_none.mp h1
    rcases hv : verify_signature hashChange s.users block with _ | _
    · rw [hv] at hres
      simp only [Bool.not_false, if_pos rfl] at hres
      obtain ⟨rfl, rfl⟩ : s = s' ∧ [] = m := by
        injection hres with h
        exact ⟨congrArg Prod.fst h, congrArg Prod.snd h⟩
      exact Or.inr (Or.inl ⟨h1n, rfl, rfl, rfl⟩)
    · rw [hv] at hres
      simp only [Bool.not_true, Bool.false_eq_true, if_false] at hres
      by_cases h3 : block.change.old ≠ ROOT_HASH ∧ (lookupD s.blocks block.change.old).isNone
      · rw [if_pos h3] at hres
        obtain ⟨rfl, rfl⟩ : pend_state s block = s' ∧ [block.change.old] = m := by
          injection hres with h
          exact ⟨congrArg Prod.fst h, congrArg Prod.snd h⟩
        exact Or.inr (Or.inr (Or.inl
          ⟨h1n, rfl, h3.1, Option.isNone_iff_eq_none.mp h3.2, rfl, rfl⟩))
      · rw [if_neg h3] at hres
        have h3' : block.change.old = ROOT_HASH ∨ (lookupD s.blocks block.change.old).isSome := by
          by_cases hr : block.change.old = ROOT_HASH
          · exact Or.inl hr
          · right
            rcases ho : lookupD s.blocks block.change.old with _ | b0
            · exact absurd ⟨hr, by simp [ho]⟩ h3
            · simp
        rcases hval : is_valid_change s (s.blocks.length + 1) block.change true with _ | e'
        · rw [hval] at hres
          cases hres
        · rw [hval] at hres
          rcases e' with _ | e
          · simp only [] at hres
            have hpend : (admit_state s (hashChange block.change) block).pending = s.pending :=
              admit_state_pending s (hashChange block.change) block
            rcases hp : lookupD (admit_state s (hashChange block.change) block).pending
                (hashChange block.change) with _ | pb
            · rw [hp] at hres
              obtain ⟨rfl, rfl⟩ : admit_state s (hashChange block.change) block = s' ∧ [] = m := by
                injection hres with h
                exact ⟨congrArg Prod.fst h, congrArg Prod.snd h⟩
              rw [hpend] at hp
              exact Or.inr (Or.inr (Or.inr (Or.inr
                ⟨h1n, rfl, h3', rfl, Or.inl ⟨hp, rfl, rfl⟩⟩)))
            · rw [hp] at hres
              rw [hpend] at hp
              exact Or.inr (Or.inr (Or.inr (Or.inr
                ⟨h1n, rfl, h3', rfl, Or.inr ⟨pb, hp, hres⟩⟩)))
          · simp only [] at hres
            obtain ⟨rfl, rfl⟩ : s = s' ∧ [] = m := by
              injection hres with h
              exact ⟨congrArg Prod.fst h, congrArg Prod.snd h⟩
            exact Or.inr (Or.inr (Or.inr (Or.inl ⟨e, h1n, rfl, h3', rfl, rfl, rfl⟩)))

/-- Draining a list of pending blocks preserves any property preserved by the
single-block function. -/
theorem drain_pending_preserves {f : BlockChain → Block → Option (BlockChain × List Nat)}
    {P : BlockChain → Prop}
    (hf : ∀ s b s' m, P s → f s b = some (s', m) → P s') :
    ∀ l s s' m, P s → drain_pending f s l = some (s', m) → P s' := by
  intro l
  induction l with
  | nil =>
    intro s s' m hP hd
    unfold drain_pending at hd
    obtain ⟨rfl, _⟩ : s = s' ∧ [] = m := by
      injection hd with h
      exact ⟨congrArg Prod.fst h, congrArg Prod.snd h⟩
    exact hP
  | cons b rest ih =>
    intro s s' m hP hd
    cases h1 : f s b with
    | none => simp [drain_pending, h1] at hd
    | some st1 =>
      cases h2 : drain_pending f st1.1 rest with
      | none => simp [drain_pending, h1, h2] at hd
      | some st2 =>
        simp only [drain_pending, h1, h2] at hd
        obtain ⟨rfl, _⟩ : st2.1 = s' ∧ st1.2 ++ st2.2 = m := by
          injection hd with h
          exact ⟨congrArg Prod.fst h, congrArg Prod.snd h⟩
        exact ih st1.1 st2.1 st2.2 (hf s b st1.1 st1.2 hP h1) h2

/-- `add_block` preserves the engine invariant. -/
theorem inv_add_block {hashChange : Change → Nat} (HR : ∀ c, hashChange c ≠ ROOT_HASH) :
    ∀ fuel s block s' m, Inv hashChange s →
      add_block hashChange fuel s block = some (s', m) → Inv hashChange s' := by
  intro fuel
  induction fuel with
  | zero => intro s block s' m _ hres; cases hres
  | succ fuel ih =>
    intro s block s' m hInv hres
    rw [add_block_succ] at hres
    rcases add_block_go_cases hres with
      ⟨_, rfl, _⟩ | ⟨_, _, rfl, _⟩ | ⟨_, _, _, _, rfl, _⟩ | ⟨e, _, _, _, _, rfl, _⟩ |
      ⟨hnew, hsig, hpar, hval, hrest⟩
    · exact hInv
    · exact hInv
    · exact inv_pend_state hInv block
    · exact hInv
    · rcases hrest with ⟨_, rfl, _⟩ | ⟨pb, hpb, hdrain⟩
      · exact inv_admit_state HR hInv block hnew hpar hval
      · exact drain_pending_preserves
          (fun s2 b2 s2' m2 hI hr => ih s2 b2 s2' m2 hI hr) pb _ s' m
          (inv_erase_pending (inv_admit_state HR hInv block hnew hpar hval) _) hdrain

/-- Every reachable state satisfies the invariant. -/
theorem reachable_inv {hashChange : Change → Nat} {s : BlockChain}
    (HR : ∀ c, hashChange c ≠ ROOT_HASH) (hR : Reachable hashChange s) :
    Inv hashChange s := by
  induction hR with
  | init ud => exact inv_init hashChange ud
  | step s s' block fuel msgs _ hstep ih =>
    exact inv_add_block HR fuel s block s' msgs ih hstep

/-- `add_block` never removes stored blocks and never touches the user
registry. -/
theorem add_block_mono {hashChange : Change → Nat} :
    ∀ fuel s block s' m, add_block hashChange fuel s block = some (s', m) →
      s'.users = s.users ∧
        (∀ x bx, lookupD s.blocks x = some bx → lookupD s'.blocks x = some bx) := by
  intro fuel
  induction fuel with
  | zero => intro s block s' m hres; cases hres
  | succ fuel ih =>
    intro s block s' m hres
    rw [add_block_succ] at hres
    have hdrain_mono : ∀ l t t' mm,
        drain_pending (add_block hashChange fuel) t l = some (t', mm) →
        t'.users = t.users ∧
          (∀ x bx, lookupD t.blocks x = some bx → lookupD t'.blocks x = some bx) := by
      intro l
      induction l with
      | nil =>
        intro t t' mm hd
        unfold drain_pending at hd
        obtain ⟨rfl, _⟩ : t = t' ∧ [] = mm := by
          injection hd with h
          exact ⟨congrArg Prod.fst h, congrArg Prod.snd h⟩
        exact ⟨rfl, fun x bx hx => hx⟩
      | cons b rest ihl =>
        intro t t' mm hd
        cases h1 : add_block hashChange fuel t b with
        | none => simp [drain_pending, h1] at hd
        | some st1 =>
          cases h2 : drain_pending (add_block hashChange fuel) st1.1 rest with
          | none => simp [drain_pending, h1, h2] at hd
          | some st2 =>
            simp only [drain_pending, h1, h2] at hd
            obtain ⟨rfl, _⟩ : st2.1 = t' ∧ st1.2 ++ st2.2 = mm := by
              injection hd with h
              exact ⟨congrArg Prod.fst h, congrArg Prod.snd h⟩
            obtain ⟨hu1, hb1⟩ := ih t b st1.1 st1.2 h1
            obtain ⟨hu2, hb2⟩ := ihl st1.1 st2.1 st2.2 h2
            exact ⟨hu2.trans hu1, fun x bx hx => hb2 x bx (hb1 x bx hx)⟩
    rcases add_block_go_cases hres with
      ⟨_, rfl, _⟩ | ⟨_, _, rfl, _⟩ | ⟨_, _, _, _, rfl, _⟩ | ⟨e, _, _, _, _, rfl, _⟩ |
      ⟨hnew, hsig, hpar, hval, hrest⟩
    · exact ⟨rfl, fun x bx hx => hx⟩
    · exact ⟨rfl, fun x bx hx => hx⟩
    · exact ⟨rfl, fun x bx hx => hx⟩
    · exact ⟨rfl, fun x bx hx => hx⟩
    · have hstep : ∀ x bx, lookupD s.blocks x = some bx →
          lookupD (admit_state s (hashChange block.change) block).blocks x = some bx := by
        intro x bx hx
        rw [admit_state_blocks, lookupD_insertD]
        have hxh : x ≠ hashChange block.change := by
          intro he
          rw [he, hnew] at hx
          cases hx
        rw [if_neg hxh]
        exact hx
      rcases hrest with ⟨_, rfl, _⟩ | ⟨pb, hpb, hdrain⟩
      · exact ⟨admit_state_users s _ block, hstep⟩
      · obtain ⟨hu, hb⟩ := hdrain_mono pb _ s' m hdrain
        constructor
        · rw [hu]
          show _ = s.users
          exact admit_state_users s _ block
        · intro x bx hx
          exact hb x bx (hstep x bx hx)

theorem total_pending_pend_state (s : BlockChain) (b : Block) :
    total_pending (pend_state s b) = total_pending s + 1 := by
  show ((insertD s.pending b.change.old (getD s.pending b.change.old [] ++ [b])).map
      fun kv => kv.2.length).sum = _
  exact sumLens_insertD_append s.pending b.change.old b

theorem total_pending_erase (s : BlockChain) (k : Nat) (pb : List Block)
    (hp : lookupD s.pending k = some pb) :
    ((eraseD s.pending k).map fun kv => kv.2.length).sum + pb.length = total_pending s := by
  have := sumLens_eraseD s.pending k
  rw [getD, hp] at this
  exact this

/-- With fuel exceeding the number of parked pending blocks, `add_block`
terminates normally on any invariant-satisfying state, and grows the pending
buffer by at most one block. -/
theorem add_block_total {hashChange : Change → Nat} (HR : ∀ c, hashChange c ≠ ROOT_HASH) :
    ∀ fuel s block, Inv hashChange s → total_pending s < fuel →
      ∃ s' m, add_block hashChange fuel s block = some (s', m) ∧
        total_pending s' ≤ total_pending s + 1 := by
  intro fuel
  induction fuel with
  | zero => intro s block _ hf; omega
  | succ fuel ih =>
    intro s block hInv hfuel
    have hdrain_total : ∀ l t, Inv hashChange t → total_pending t + l.length ≤ fuel →
        ∃ t' mm, drain_pending (add_block hashChange fuel) t l = some (t', mm) ∧
          total_pending t' ≤ total_pending t + l.length := by
      intro l
      induction l with
      | nil =>
        intro t hI hle
        exact ⟨t, [], rfl, by omega⟩
      | cons b rest ihl =>
        intro t hI hle
        simp only [List.length_cons] at hle
        obtain ⟨t1, m1, h1, hb1⟩ := ih t b hI (by omega)
        have hI1 := inv_add_block HR fuel t b t1 m1 hI h1
        obtain ⟨t2, m2, h2, hb2⟩ := ihl t1 hI1 (by omega)
        refine ⟨t2, m1 ++ m2, ?_, by simp only [List.length_cons]; omega⟩
        simp [drain_pending, h1, h2]
    rw [add_block_succ]
    unfold add_block_go
    by_cases h1 : (lookupD s.blocks (hashChange block.change)).isSome
    · rw [if_pos h1]
      exact ⟨s, [], rfl, by omega⟩
    · rw [if_neg h1]
      have hnew : lookupD s.blocks (hashChange block.change) = none :=
        Option.not_isSome_iff_eq_none.mp h1
      cases hv : verify_signature hashChange s.users block with
      | false =>
        simp only [hv, Bool.not_false, if_true]
        exact ⟨s, [], rfl, by omega⟩
      | true =>
        simp only [hv, Bool.not_true, Bool.false_eq_true, if_false]
        by_cases h3 : block.change.old ≠ ROOT_HASH ∧ (lookupD s.blocks block.change.old).isNone
        · rw [if_pos h3]
          refine ⟨pend_state s block, [block.change.old], rfl, ?_⟩
          rw [total_pending_pend_state]
        · rw [if_neg h3]
          have h3' : block.change.old = ROOT_HASH ∨ (lookupD s.blocks block.change.old).isSome := by
            by_cases hr : block.change.old = ROOT_HASH
            · exact Or.inl hr
            · right
              rcases ho : lookupD s.blocks block.change.old with _ | b0
              · exact absurd ⟨hr, by simp [ho]⟩ h3
              · simp
          have hplb : getD s.chain_lengths block.change.old 0 < s.blocks.length + 1 := by
            cases hL : lookupD s.chain_lengths block.change.old with
            | none => simp [getD, hL]
            | some L0 =>
              have := hInv.len_bound _ _ hL
              simp [getD, hL]
              omega
          have hvalid_some : (is_valid_change s (s.blocks.length + 1) block.change true).isSome :=
            is_valid_change_isSome
              (compute_paid_status_total hInv (s.blocks.length + 1) block.change.old h3' hplb)
          obtain ⟨res, hres⟩ := Option.isSome_iff_exists.mp hvalid_some
          cases res with
          | some e =>
            simp only [hres]
            exact ⟨s, [], rfl, by omega⟩
          | none =>
            simp only [hres]
            have hs4pend : (admit_state s (hashChange block.change) block).pending = s.pending :=
              admit_state_pending s (hashChange block.change) block
            cases hp : lookupD s.pending (hashChange block.change) with
            | none =>
              rw [hs4pend, hp]
              refine ⟨admit_state s (hashChange block.change) block, [], rfl, ?_⟩
              have heq : total_pending (admit_state s (hashChange block.change) block)
                  = total_pending s := by
                unfold total_pending
                rw [hs4pend]
              rw [heq]
              omega
            | some pb =>
              simp only [hs4pend, hp]
              have hIadmit := inv_admit_state HR hInv block hnew h3' hres
              have hI5 : Inv hashChange (drain_start s (hashChange block.change) block) :=
                inv_erase_pending hIadmit _
              have hphi5 : total_pending (drain_start s (hashChange block.change) block)
                  + pb.length = total_pending s := by
                show ((eraseD (admit_state s (hashChange block.change) block).pending
                    (hashChange block.change)).map fun kv => kv.2.length).sum + pb.length = _
                rw [hs4pend]
                exact total_pending_erase s _ pb hp
              obtain ⟨t', mm, hdr, hbnd⟩ := hdrain_total pb
                (drain_start s (hashChange block.change) block) hI5 (by omega)
              refine ⟨t', mm, ?_, by omega⟩
              unfold drain_start at hdr
              rw [hs4pend] at hdr
              exact hdr

/-- Blocks drained from the pending buffer never emit `missing` requests. -/
theorem add_block_msgs_empty {hashChange : Change → Nat} (HR : ∀ c, hashChange c ≠ ROOT_HASH) :
    ∀ fuel s block s' m, Inv hashChange s →
      (block.change.old = ROOT_HASH ∨ (lookupD s.blocks block.change.old).isSome) →
      add_block hashChange fuel s block = some (s', m) → m = [] := by
  intro fuel
  induction fuel with
  | zero => intro s block s' m _ _ h; cases h
  | succ fuel ih =>
    intro s block s' m hInv hold hres
    rw [add_block_succ] at hres
    rcases add_block_go_cases hres with
      ⟨_, _, hm⟩ | ⟨_, _, _, hm⟩ | ⟨_, _, hne, hnone, _, hm⟩ | ⟨e, _, _, _, _, _, hm⟩ |
      ⟨hnew, hsig, hpar, hval, hrest⟩
    · exact hm
    · exact hm
    · rcases hold with hro | hsome
      · exact absurd hro hne
      · rw [hnone] at hsome
        simp at hsome
    · exact hm
    · rcases hrest with ⟨_, _, hm⟩ | ⟨pb, hpb, hdrain⟩
      · exact hm
      · have hdrain_empty : ∀ l t t' mm, Inv hashChange t →
            (∀ b2 ∈ l, (lookupD t.blocks b2.change.old).isSome) →
            drain_pending (add_block hashChange fuel) t l = some (t', mm) → mm = [] := by
          intro l
          induction l with
          | nil =>
            intro t t' mm _ _ hd
            obtain ⟨_, hmm⟩ : t = t' ∧ [] = mm := by
              injection hd with h
              exact ⟨congrArg Prod.fst h, congrArg Prod.snd h⟩
            exact hmm.symm
          | cons b2 rest ihl =>
            intro t t' mm hI hall hd
            cases h1 : add_block hashChange fuel t b2 with
            | none => simp [drain_pending, h1] at hd
            | some st1 =>
              cases h2 : drain_pending (add_block hashChange fuel) st1.1 rest with
              | none => simp [drain_pending, h1, h2] at hd
              | some st2 =>
                simp only [drain_pending, h1, h2] at hd
                obtain ⟨-, hmm⟩ : st2.1 = t' ∧ st1.2 ++ st2.2 = mm := by
                  injection hd with h
                  exact ⟨congrArg Prod.fst h, congrArg Prod.snd h⟩
                have hm1 : st1.2 = [] :=
                  ih t b2 st1.1 st1.2 hI (Or.inr (hall b2 (List.mem_cons_self b2 rest))) h1
                have hI1 := inv_add_block HR fuel t b2 st1.1 st1.2 hI h1
                have hall1 : ∀ b3 ∈ rest, (lookupD st1.1.blocks b3.change.old).isSome := by
                  intro b3 hb3
                  obtain ⟨bb, hbb⟩ := Option.isSome_iff_exists.mp
                    (hall b3 (List.mem_cons_of_mem _ hb3))
                  have := (add_block_mono fuel t b2 st1.1 st1.2 h1).2 _ _ hbb
                  simp [this]
                have hm2 : st2.2 = [] := ihl st1.1 st2.1 st2.2 hI1 hall1 h2
                rw [← hmm, hm1, hm2]
                rfl
        have hIadmit := inv_admit_state HR hInv block hnew hpar hval
        have hI5 : Inv hashChange (drain_start s (hashChange block.change) block) :=
          inv_erase_pending hIadmit _
        have hall : ∀ b2 ∈ pb,
            (lookupD (drain_start s (hashChange block.change) block).blocks
              b2.change.old).isSome := by
          intro b2 hb2
          have hbo : b2.change.old = hashChange block.change :=
            hInv.pending_ok _ pb hpb b2 hb2
          rw [hbo]
          show (lookupD (admit_state s (hashChange block.change) block).blocks
            (hashChange block.change)).isSome
          rw [admit_state_blocks, lookupD_insertD_self]
          rfl
        exact hdrain_empty pb _ s' m hI5 hall hdrain

/-- Any recorded chain length (and the 0 default) is below
`s.blocks.length + 1`. -/
theorem getD_len_lt {hashChange : Change → Nat} {s : BlockChain}
    (hInv : Inv hashChange s) (hh : Nat) :
    getD s.chain_lengths hh 0 < s.blocks.length + 1 := by
  cases hL : lookupD s.chain_lengths hh with
  | none => simp [getD, hL]
  | some L =>
    have := hInv.len_bound _ _ hL
    simp [getD, hL]
    omega

/-- In an invariant-satisfying state, the balances walk terminates from
`ROOT_HASH` or any stored block, yields a dict over exactly the known users,
and its values sum to `20 * |users|`. -/
theorem compute_balances_props {hashChange : Change → Nat} {s : BlockChain}
    (hInv : Inv hashChange s) :
    ∀ fuel hh, (hh = ROOT_HASH ∨ (lookupD s.blocks hh).isSome) →
      getD s.chain_lengths hh 0 < fuel →
      ∃ bal, compute_balances s fuel hh = some bal ∧
        bal.map Prod.fst = s.users.map Prod.fst ∧
        (bal.map Prod.snd).sum = 20 * (s.users.length : Int) := by
  intro fuel
  induction fuel with
  | zero => intro hh _ h; omega
  | succ fuel ih =>
    intro hh hsrc hlt
    by_cases hr : hh = ROOT_HASH
    · refine ⟨s.users.map (fun kv => (kv.1, (20 : Int))), ?_, ?_, ?_⟩
      · simp [compute_balances, hr]
      · rw [List.map_map]
        rfl
      · exact sum_map_const20 s.users
    · rcases hsrc with rfl | hs
      · exact absurd rfl hr
      · obtain ⟨b, hb⟩ := Option.isSome_iff_exists.mp hs
        have hpar := hInv.parent_ok hh b hb
        have hgd : getD s.chain_lengths hh 0 = getD s.chain_lengths b.change.old 0 + 1 := by
          simp [getD, hInv.len_ok hh b hb]
        obtain ⟨pbal, hpbal, hkeys, hsum⟩ := ih b.change.old hpar (by omega)
        have husers := hInv.users_ok hh b hb
        have hsrc_mem : b.change.src ∈ pbal.map Prod.fst := by
          rw [hkeys]
          exact (lookupD_isSome_iff _ _).mp husers.1
        obtain ⟨sv, hsv⟩ := Option.isSome_iff_exists.mp
          ((lookupD_isSome_iff pbal b.change.src).mpr hsrc_mem)
        have hkeys1 : (insertD pbal b.change.src (sv - b.change.n)).map Prod.fst
            = s.users.map Prod.fst := by
          rw [keys_insertD_of_isSome _ _ _ (by simp [hsv]), hkeys]
        have hsum1 : ((insertD pbal b.change.src (sv - b.change.n)).map Prod.snd).sum
            = 20 * (s.users.length : Int) - sv + (sv - b.change.n) := by
          rw [sum_insertD pbal _ _ sv hsv, hsum]
        have hdst_mem : b.change.dst
            ∈ (insertD pbal b.change.src (sv - b.change.n)).map Prod.fst := by
          rw [hkeys1]
          exact (lookupD_isSome_iff _ _).mp husers.2
        obtain ⟨dv, hdv⟩ := Option.isSome_iff_exists.mp
          ((lookupD_isSome_iff _ b.change.dst).mpr hdst_mem)
        refine ⟨insertD (insertD pbal b.change.src (sv - b.change.n)) b.change.dst
          (dv + b.change.n), ?_, ?_, ?_⟩
        · simp [compute_balances, hr, hb, hpbal, apply_balance, hsv, hdv]
        · rw [keys_insertD_of_isSome _ _ _ (by simp [hdv]), hkeys1]
        · rw [sum_insertD _ _ _ dv hdv, hsum1]
          ring

/-- A player/booth pair exists iff exactly one of the two names is a booth. -/
theorem pair_none_iff (u1 u2 : String) :
    get_player_booth_pair u1 u2 = none ↔ is_booth u1 = is_booth u2 := by
  unfold get_player_booth_pair
  cases h1 : is_booth u1 <;> cases h2 : is_booth u2 <;> simp

/-- The pair returned by `_get_player_booth_pair` is `(player, booth)` with
the booth drawn from the two arguments. -/
theorem pair_some_src (u1 u2 p b : String)
    (h : get_player_booth_pair u1 u2 = some (p, b)) :
    (p = u1 ∧ b = u2 ∧ is_booth u2 = true ∧ is_booth u1 = false)
      ∨ (p = u2 ∧ b = u1 ∧ is_booth u1 = true ∧ is_booth u2 = false) := by
  unfold get_player_booth_pair at h
  cases h1 : is_booth u1 <;> cases h2 : is_booth u2 <;> rw [h1, h2] at h <;> simp at h
  · exact Or.inl ⟨h.1.symm, h.2.symm, rfl, rfl⟩
  · exact Or.inr ⟨h.1.symm, h.2.symm, rfl, rfl⟩

/-- `_is_valid_change` when `src` is unknown. -/
theorem is_valid_change_unknown_src {s : BlockChain} {fuel : Nat} {c : Change} {cp : Bool}
    (hu : lookupD s.users c.src = none) :
    is_valid_change s fuel c cp = some (some (unknown_user c.src)) := by
  simp [is_valid_change, hu]

/-- `_is_valid_change` when `src` is known but `dst` is not. -/
theorem is_valid_change_unknown_dst {s : BlockChain} {fuel : Nat} {c : Change} {cp : Bool}
    {u0 : UserData} (hu : lookupD s.users c.src = some u0)
    (hv : lookupD s.users c.dst = none) :
    is_valid_change s fuel c cp = some (some (unknown_user c.dst)) := by
  simp [is_valid_change, hu, hv]

/-- `_is_valid_change` when both users are known but no player/booth pair
exists. -/
theorem is_valid_change_no_pair {s : BlockChain} {fuel : Nat} {c : Change} {cp : Bool}
    {u0 v0 : UserData} (hu : lookupD s.users c.src = some u0)
    (hv : lookupD s.users c.dst = some v0)
    (hp : get_player_booth_pair c.src c.dst = none) :
    is_valid_change s fuel c cp = some (some err_not_authorized) := by
  simp [is_valid_change, hu, hv, hp]

/-- `_is_valid_change` unfolded past the user checks when a player/booth
pair exists. -/
theorem is_valid_change_pair {s : BlockChain} {fuel : Nat} {c : Change} {cp : Bool}
    {p b : String} {u0 v0 : UserData}
    (hu : lookupD s.users c.src = some u0)
    (hv : lookupD s.users c.dst = some v0)
    (hp : get_player_booth_pair c.src c.dst = some (p, b)) :
    is_valid_change s fuel c cp =
      (if p ++ booth_suffix = b then some (some err_not_authorized)
       else if (if c.src = p then (c.n < 1 ∨ 5 < c.n) else (c.n < 0 ∨ 10 < c.n)) then
         some (some err_invalid_amount)
       else if cp && c.src = b then
         match compute_paid_status s fuel c.old with
         | none => none
         | some paid_status =>
           match lookupD paid_status p with
           | none => some (some err_not_paid)
           | some booths => if b ∈ booths then some none else some (some err_not_paid)
       else some none) := by
  simp only [is_valid_change, hu, hv, hp, Option.isNone_some, Bool.false_eq_true, if_false]

theorem mem_add_to_set [DecidableEq α] (l : List α) (x y : α) :
    y ∈ add_to_set l x ↔ (y = x ∨ y ∈ l) := by
  unfold add_to_set
  by_cases h : x ∈ l
  · rw [if_pos h]
    constructor
    · exact Or.inr
    · rintro (rfl | hy)
      · exact h
      · exact hy
  · rw [if_neg h]
    simp [or_comm]

theorem mem_discard_from_set [DecidableEq α] (l : List α) (x y : α) :
    y ∈ discard_from_set l x ↔ (y ∈ l ∧ y ≠ x) := by
  unfold discard_from_set
  simp

/-- Membership in the paid map after one `apply_paid` step: on a
player→booth or booth→player change the pair `(player, booth)` is present
exactly when the change was player→booth, and every other `(player, booth)`
query is unchanged. -/
theorem mem_apply_paid (pp : List (String × List String)) (c : Change) (pl bo : String) :
    (get_player_booth_pair c.src c.dst = none →
      (bo ∈ getD (apply_paid pp c) pl [] ↔ bo ∈ getD pp pl [])) ∧
    (∀ p0 b0, get_player_booth_pair c.src c.dst = some (p0, b0) →
      ((pl = p0 ∧ bo = b0) → (bo ∈ getD (apply_paid pp c) pl [] ↔ c.src = p0)) ∧
      (¬ (pl = p0 ∧ bo = b0) →
        (bo ∈ getD (apply_paid pp c) pl [] ↔ bo ∈ getD pp pl []))) := by
  constructor
  · intro hp
    unfold apply_paid
    rw [hp]
  · intro p0 b0 hp
    unfold apply_paid
    rw [hp]
    simp only []
    constructor
    · rintro ⟨rfl, rfl⟩
      by_cases hsrc : c.src = pl
      · rw [if_pos hsrc]
        have : getD (insertD pp pl (add_to_set (getD pp pl []) bo)) pl []
            = add_to_set (getD pp pl []) bo := by
          simp [getD, lookupD_insertD_self]
        rw [this]
        rw [mem_add_to_set]
        simp [hsrc]
      · rw [if_neg hsrc]
        have : getD (insertD pp pl (discard_from_set (getD pp pl []) bo)) pl []
            = discard_from_set (getD pp pl []) bo := by
          simp [getD, lookupD_insertD_self]
        rw [this]
        rw [mem_discard_from_set]
        simp [hsrc]
    · intro hne
      by_cases hpl : pl = p0
      · subst hpl
        have hbo : bo ≠ b0 := fun h => hne ⟨rfl, h⟩
        by_cases hsrc : c.src = pl
        · rw [if_pos hsrc]
          have : getD (insertD pp pl (add_to_set (getD pp pl []) b0)) pl []
              = add_to_set (getD pp pl []) b0 := by
            simp [getD, lookupD_insertD_self]
          rw [this, mem_add_to_set]
          simp [hbo]
        · rw [if_neg hsrc]
          have : getD (insertD pp pl (discard_from_set (getD pp pl []) b0)) pl []
              = discard_from_set (getD pp pl []) b0 := by
            simp [getD, lookupD_insertD_self]
          rw [this, mem_discard_from_set]
          simp [hbo]
      · have hget : ∀ X, getD (insertD pp p0 X) pl [] = getD pp pl [] := by
          intro X
          simp [getD, lookupD_insertD_ne _ _ _ _ hpl]
        by_cases hsrc : c.src = p0
        · rw [if_pos hsrc, hget]
        · rw [if_neg hsrc, hget]

/-! ## Claim theorems -/

/-- C1: head invariant.  In every state reachable by successful `add_block`
admissions from the initial state, every stored hash `h` satisfies
`chain_length[h] < chain_length[head]`, or the lengths are equal and
`head ≤ h` numerically; moreover the head is `ROOT_HASH` exactly when the
store is empty, and a stored block otherwise. -/
theorem head_invariant {hashChange : Change → Nat} {s : BlockChain}
    (HR : ∀ c, hashChange c ≠ ROOT_HASH) (hR : Reachable hashChange s) :
    (∀ h, (lookupD s.blocks h).isSome →
        getD s.chain_lengths h 0 < getD s.chain_lengths s.head 0 ∨
          (getD s.chain_lengths h 0 = getD s.chain_lengths s.head 0 ∧ s.head ≤ h))
      ∧ (s.blocks = [] → s.head = ROOT_HASH)
      ∧ (s.blocks ≠ [] → (lookupD s.blocks s.head).isSome) := by
  have hInv := reachable_inv HR hR
  refine ⟨hInv.head_max, hInv.head_root, ?_⟩
  intro hne
  rcases hInv.head_ok with hr | hs
  · obtain ⟨kv, hmem⟩ := List.exists_mem_of_ne_nil s.blocks hne
    have hxk : kv.1 ∈ s.blocks.map Prod.fst := List.mem_map_of_mem Prod.fst hmem
    have hxs : (lookupD s.blocks kv.1).isSome := (lookupD_isSome_iff s.blocks kv.1).mpr hxk
    obtain ⟨bx, hbx⟩ := Option.isSome_iff_exists.mp hxs
    have hlen := hInv.len_ok kv.1 bx hbx
    have hx0 : getD s.chain_lengths kv.1 0 = getD s.chain_lengths bx.change.old 0 + 1 := by
      simp [getD, hlen]
    have hroot0 : getD s.chain_lengths s.head 0 = 0 := by
      simp [getD, hr, hInv.root_len]
    rcases hInv.head_max kv.1 hxs with hlt | ⟨heq, _⟩
    · omega
    · omega
  · exact hs

/-- C8: chain-length invariant.  In every reachable state,
`chain_lengths[ROOT_HASH] = 0`, and every stored block's parent is either
`ROOT_HASH` or itself stored, has a recorded chain length `Lp`, and the
block's recorded chain length is `Lp + 1`. -/
theorem chain_length_invariant {hashChange : Change → Nat} {s : BlockChain}
    (HR : ∀ c, hashChange c ≠ ROOT_HASH) (hR : Reachable hashChange s) :
    lookupD s.chain_lengths ROOT_HASH = some 0 ∧
      ∀ h b, lookupD s.blocks h = some b →
        (b.change.old = ROOT_HASH ∨ (lookupD s.blocks b.change.old).isSome) ∧
          ∃ Lp, lookupD s.chain_lengths b.change.old = some Lp ∧
            lookupD s.chain_lengths h = some (Lp + 1) := by
  have hInv := reachable_inv HR hR
  refine ⟨hInv.root_len, ?_⟩
  intro h b hb
  refine ⟨hInv.parent_ok h b hb, ?_⟩
  rcases hInv.parent_ok h b hb with hro | hs
  · refine ⟨0, by rw [hro]; exact hInv.root_len, ?_⟩
    have h2 : getD s.chain_lengths b.change.old 0 = 0 := by
      simp [getD, hro, hInv.root_len]
    have := hInv.len_ok h b hb
    rw [this, h2]
  · obtain ⟨b2, hb2⟩ := Option.isSome_iff_exists.mp hs
    have hlp := hInv.len_ok _ b2 hb2
    refine ⟨_, hlp, ?_⟩
    have h2 : getD s.chain_lengths b.change.old 0
        = getD s.chain_lengths b2.change.old 0 + 1 := by
      simp [getD, hlp]
    rw [hInv.len_ok h b hb, h2]

/-- C3: ingestion failure contract.  On a reachable state, `add_block`
(with fuel covering the pending buffer) always returns normally; its
messages are at most one `{'missing': old}`, sent exactly when the block is
correctly signed, not already stored, and its parent is neither `ROOT_HASH`
nor stored (in which case the block is appended to `pending[old]` and
nothing else changes); and on every negative outcome the block store, chain
lengths, children and head are unchanged. -/
theorem ingestion_contract {hashChange : Change → Nat} {s : BlockChain}
    (HR : ∀ c, hashChange c ≠ ROOT_HASH) (hR : Reachable hashChange s) (block : Block) :
    ∃ s' m, add_block hashChange (total_pending s + 1) s block = some (s', m) ∧
      (m = [] ∨ m = [block.change.old]) ∧
      (m = [block.change.old] ↔
        (lookupD s.blocks (hashChange block.change) = none
          ∧ verify_signature hashChange s.users block = true
          ∧ block.change.old ≠ ROOT_HASH
          ∧ lookupD s.blocks block.change.old = none)) ∧
      (m = [block.change.old] → s' = pend_state s block) ∧
      (((lookupD s.blocks (hashChange block.change)).isSome
          ∨ verify_signature hashChange s.users block = false
          ∨ (block.change.old ≠ ROOT_HASH ∧ lookupD s.blocks block.change.old = none)
          ∨ (∃ e, is_valid_change s (s.blocks.length + 1) block.change true = some (some e))) →
        s'.blocks = s.blocks ∧ s'.chain_lengths = s.chain_lengths
          ∧ s'.children = s.children ∧ s'.head = s.head) := by
  have hInv := reachable_inv HR hR
  obtain ⟨s', m, hres, -⟩ :=
    add_block_total HR (total_pending s + 1) s block hInv (by omega)
  refine ⟨s', m, hres, ?_⟩
  have hres' := hres
  rw [add_block_succ] at hres'
  rcases add_block_go_cases hres' with
    ⟨hsome, rfl, rfl⟩ | ⟨hnone, hvf, rfl, rfl⟩ | ⟨hnone, hvt, hne, honone, rfl, rfl⟩ |
    ⟨e, hnone, hvt, hpar, hval, rfl, rfl⟩ | ⟨hnone, hvt, hpar, hval, hrest⟩
  · refine ⟨Or.inl rfl, ?_, ?_, ?_⟩
    · constructor
      · intro h
        cases h
      · rintro ⟨h1, -⟩
        rw [h1] at hsome
        cases hsome
    · intro h
      cases h
    · intro _
      exact ⟨rfl, rfl, rfl, rfl⟩
  · refine ⟨Or.inl rfl, ?_, ?_, ?_⟩
    · constructor
      · intro h
        cases h
      · rintro ⟨-, h2, -⟩
        rw [h2] at hvf
        cases hvf
    · intro h
      cases h
    · intro _
      exact ⟨rfl, rfl, rfl, rfl⟩
  · refine ⟨Or.inr rfl, ?_, ?_, ?_⟩
    · exact ⟨fun _ => ⟨hnone, hvt, hne, honone⟩, fun _ => rfl⟩
    · intro _
      rfl
    · intro _
      exact ⟨rfl, rfl, rfl, rfl⟩
  · refine ⟨Or.inl rfl, ?_, ?_, ?_⟩
    · constructor
      · intro h
        cases h
      · rintro ⟨-, -, hne, hnone2⟩
        rcases hpar with hro | hsome2
        · exact absurd hro hne
        · rw [hnone2] at hsome2
          cases hsome2
    · intro h
      cases h
    · intro _
      exact ⟨rfl, rfl, rfl, rfl⟩
  · have hm : m = [] :=
      add_block_msgs_empty HR (total_pending s + 1) s block s' m hInv hpar hres
    subst hm
    refine ⟨Or.inl rfl, ?_, ?_, ?_⟩
    · constructor
      · intro h
        cases h
      · rintro ⟨-, -, hne, hnone2⟩
        rcases hpar with hro | hsome2
        · exact absurd hro hne
        · rw [hnone2] at hsome2
          cases hsome2
    · intro h
      cases h
    · intro hneg
      exfalso
      rcases hneg with h1 | h2 | ⟨hne, hnone2⟩ | ⟨e, he⟩
      · rw [hnone] at h1
        cases h1
      · rw [hvt] at h2
        cases h2
      · rcases hpar with hro | hsome2
        · exact absurd hro hne
        · rw [hnone2] at hsome2
          cases hsome2
      · rw [hval] at he
        cases he

/-- C5: balance conservation.  In every reachable state: at `ROOT_HASH` the
balances assign 20 to every known user; for every stored block the balances
are the parent balances with the block's `src -= n` / `dst += n` delta
applied; and for `ROOT_HASH` and every stored block the balances exist and
always sum to `20 * |users|`. -/
theorem balance_conservation {hashChange : Change → Nat} {s : BlockChain}
    (HR : ∀ c, hashChange c ≠ ROOT_HASH) (hR : Reachable hashChange s) :
    (∃ rootbal, compute_balances s (s.blocks.length + 1) ROOT_HASH = some rootbal ∧
        ∀ u, (lookupD s.users u).isSome → lookupD rootbal u = some 20) ∧
      (∀ h b, lookupD s.blocks h = some b → ∀ fuel,
          compute_balances s (fuel + 1) h
            = (compute_balances s fuel b.change.old).bind
                (fun pb => apply_balance pb b.change)) ∧
      (∀ h, (h = ROOT_HASH ∨ (lookupD s.blocks h).isSome) →
          ∃ bal, compute_balances s (s.blocks.length + 1) h = some bal ∧
            (bal.map Prod.snd).sum = 20 * (s.users.length : Int)) := by
  have hInv := reachable_inv HR hR
  refine ⟨?_, ?_, ?_⟩
  · refine ⟨s.users.map (fun kv => (kv.1, (20 : Int))), by simp [compute_balances], ?_⟩
    intro u hu
    rw [lookupD_map_const]
    obtain ⟨ud, hud⟩ := Option.isSome_iff_exists.mp hu
    rw [hud]
    rfl
  · intro h b hb fuel
    have hne : h ≠ ROOT_HASH := stored_ne_root HR hInv hb
    cases hp : compute_balances s fuel b.change.old with
    | none => simp [compute_balances, hne, hb, hp]
    | some pb => simp [compute_balances, hne, hb, hp]
  · intro h hsrc
    obtain ⟨bal, hbal, -, hsum⟩ :=
      compute_balances_props hInv (s.blocks.length + 1) h hsrc (getD_len_lt hInv h)
    exact ⟨bal, hbal, hsum⟩

/-- C10: `get_accounts` returns exactly the users whose balance at the
current head differs from 20, each mapped to that balance; at head
`ROOT_HASH` the result is the empty mapping. -/
theorem get_accounts_spec {hashChange : Change → Nat} {s : BlockChain}
    (HR : ∀ c, hashChange c ≠ ROOT_HASH) (hR : Reachable hashChange s) :
    ∃ bal acc, compute_balances s (s.blocks.length + 1) s.head = some bal ∧
      get_accounts s = some acc ∧
      (∀ u v, lookupD acc u = some v ↔ (lookupD bal u = some v ∧ v ≠ 20)) ∧
      (s.head = ROOT_HASH → acc = []) := by
  have hInv := reachable_inv HR hR
  obtain ⟨bal, hbal, hkeys, -⟩ :=
    compute_balances_props hInv (s.blocks.length + 1) s.head hInv.head_ok
      (getD_len_lt hInv s.head)
  have hnd : (bal.map Prod.fst).Nodup := by
    rw [hkeys]
    exact hInv.users_nodup
  refine ⟨bal, bal.filter (fun kv => kv.2 ≠ 20), hbal, ?_, ?_, ?_⟩
  · simp [get_accounts, hbal]
  · intro u v
    rw [lookupD_filter_snd bal (fun w => w ≠ 20) u hnd]
    cases hb : lookupD bal u with
    | none => simp
    | some w =>
      simp only [Option.some_bind, decide_eq_true_eq]
      by_cases hw : w = 20
      · subst hw
        rw [if_neg (fun h => h rfl)]
        constructor
        · intro h
          cases h
        · rintro ⟨h1, h2⟩
          injection h1 with h1
          exact absurd h1.symm h2
      · rw [if_pos hw]
        constructor
        · intro h
          injection h with h
          subst h
          exact ⟨rfl, hw⟩
        · rintro ⟨h1, -⟩
          exact h1
  · intro hroot
    have hbal_root : bal = s.users.map (fun kv => (kv.1, (20 : Int))) := by
      rw [hroot] at hbal
      have : compute_balances s (s.blocks.length + 1) ROOT_HASH
          = some (s.users.map (fun kv => (kv.1, (20 : Int)))) := by
        simp [compute_balances]
      rw [this] at hbal
      injection hbal with hbal
      exact hbal.symm
    rw [hbal_root]
    rw [List.filter_eq_nil_iff]
    intro a ha
    obtain ⟨kv, -, rfl⟩ := List.mem_map.mp ha
    simp

/-- C6: validator postcondition (rules 1-3).  `_is_valid_change` returns
`'Unknown user: X'` naming the offending side when `src` or `dst` is
unregistered; with both registered it returns `'Not authorized'` exactly when
both names are booths, both are players, or the pair maps a player to their
own namesake booth; it returns `'Invalid amount'` exactly when a
non-namesake pair exists and the amount is outside 1..5 (player→booth)
resp. 0..10 (booth→player); and it accepts only when none of these
conditions hold. -/
theorem validator_postcondition (s : BlockChain) (fuel : Nat) (c : Change) :
    (lookupD s.users c.src = none →
        is_valid_change s fuel c true = some (some (unknown_user c.src))) ∧
    ((lookupD s.users c.src).isSome → lookupD s.users c.dst = none →
        is_valid_change s fuel c true = some (some (unknown_user c.dst))) ∧
    ((lookupD s.users c.src).isSome → (lookupD s.users c.dst).isSome →
        (is_valid_change s fuel c true = some (some err_not_authorized) ↔
          ((is_booth c.src = true ∧ is_booth c.dst = true)
            ∨ (is_booth c.src = false ∧ is_booth c.dst = false)
            ∨ (∃ p b, get_player_booth_pair c.src c.dst = some (p, b)
                ∧ p ++ booth_suffix = b)))) ∧
    ((lookupD s.users c.src).isSome → (lookupD s.users c.dst).isSome →
        (is_valid_change s fuel c true = some (some err_invalid_amount) ↔
          (∃ p b, get_player_booth_pair c.src c.dst = some (p, b)
            ∧ ¬ p ++ booth_suffix = b
            ∧ (if c.src = p then (c.n < 1 ∨ 5 < c.n) else (c.n < 0 ∨ 10 < c.n))))) ∧
    (is_valid_change s fuel c true = some none →
        ((lookupD s.users c.src).isSome ∧ (lookupD s.users c.dst).isSome
          ∧ ¬ ((is_booth c.src = true ∧ is_booth c.dst = true)
                ∨ (is_booth c.src = false ∧ is_booth c.dst = false)
                ∨ (∃ p b, get_player_booth_pair c.src c.dst = some (p, b)
                    ∧ p ++ booth_suffix = b))
          ∧ ¬ (∃ p b, get_player_booth_pair c.src c.dst = some (p, b)
                ∧ ¬ p ++ booth_suffix = b
                ∧ (if c.src = p then (c.n < 1 ∨ 5 < c.n)
                    else (c.n < 0 ∨ 10 < c.n))))) := by
  have hne_auth_amt : err_not_authorized ≠ err_invalid_amount := by decide
  have hne_auth_paid : err_not_authorized ≠ err_not_paid := by decide
  have hne_amt_paid : err_invalid_amount ≠ err_not_paid := by decide
  refine ⟨?_, ?_, ?_, ?_, ?_⟩
  · intro hu
    exact is_valid_change_unknown_src hu
  · intro hu hv
    obtain ⟨u0, hu0⟩ := Option.isSome_iff_exists.mp hu
    exact is_valid_change_unknown_dst hu0 hv
  · intro hu hv
    obtain ⟨u0, hu0⟩ := Option.isSome_iff_exists.mp hu
    obtain ⟨v0, hv0⟩ := Option.isSome_iff_exists.mp hv
    cases hp : get_player_booth_pair c.src c.dst with
    | none =>
      rw [is_valid_change_no_pair hu0 hv0 hp]
      have hbb := (pair_none_iff c.src c.dst).mp hp
      constructor
      · intro _
        cases hsb : is_booth c.src with
        | false => exact Or.inr (Or.inl ⟨rfl, by rw [← hbb, hsb]⟩)
        | true => exact Or.inl ⟨rfl, by rw [← hbb, hsb]⟩
      · intro _
        rfl
    | some pb =>
      obtain ⟨p, b⟩ := pb
      rw [is_valid_change_pair hu0 hv0 hp]
      by_cases hname : p ++ booth_suffix = b
      · rw [if_pos hname]
        constructor
        · intro _
          exact Or.inr (Or.inr ⟨p, b, rfl, hname⟩)
        · intro _
          rfl
      · rw [if_neg hname]
        constructor
        · intro hres
          exfalso
          by_cases hamt : (if c.src = p then (c.n < 1 ∨ 5 < c.n) else (c.n < 0 ∨ 10 < c.n))
          · rw [if_pos hamt] at hres
            injection hres with hres
            injection hres with hres
            exact hne_auth_amt hres.symm
          · rw [if_neg hamt] at hres
            by_cases hsb : (true && c.src = b : Bool)
            · rw [if_pos hsb] at hres
              cases hps : compute_paid_status s fuel c.old with
              | none => simp [hps] at hres
              | some ps =>
                simp only [hps] at hres
                cases hl : lookupD ps p with
                | none =>
                  simp only [hl] at hres
                  injection hres with hres
                  injection hres with hres
                  exact hne_auth_paid hres.symm
                | some booths =>
                  simp only [hl] at hres
                  by_cases hbm : b ∈ booths
                  · rw [if_pos hbm] at hres
                    injection hres with hres
                    cases hres
                  · rw [if_neg hbm] at hres
                    injection hres with hres
                    injection hres with hres
                    exact hne_auth_paid hres.symm
            · rw [if_neg hsb] at hres
              injection hres with hres
              cases hres
        · intro hcond
          exfalso
          rcases hcond with ⟨h1, h2⟩ | ⟨h1, h2⟩ | ⟨p2, b2, hp2, hn2⟩
          · rcases pair_some_src _ _ _ _ hp with ⟨-, -, -, hsf⟩ | ⟨-, -, -, hdf⟩
            · rw [h1] at hsf; cases hsf
            · rw [h2] at hdf; cases hdf
          · rcases pair_some_src _ _ _ _ hp with ⟨-, -, hdt, -⟩ | ⟨-, -, hst, -⟩
            · rw [h2] at hdt; cases hdt
            · rw [h1] at hst; cases hst
          · injection hp2 with hp2
            obtain ⟨rfl, rfl⟩ : p2 = p ∧ b2 = b :=
              ⟨congrArg Prod.fst hp2.symm, congrArg Prod.snd hp2.symm⟩
            exact hname hn2
  · intro hu hv
    obtain ⟨u0, hu0⟩ := Option.isSome_iff_exists.mp hu
    obtain ⟨v0, hv0⟩ := Option.isSome_iff_exists.mp hv
    cases hp : get_player_booth_pair c.src c.dst with
    | none =>
      rw [is_valid_change_no_pair hu0 hv0 hp]
      constructor
      · intro hres
        injection hres with hres
        injection hres with hres
        exact absurd hres hne_auth_amt
      · rintro ⟨p2, b2, hp2, -⟩
        cases hp2
    | some pb =>
      obtain ⟨p, b⟩ := pb
      rw [is_valid_change_pair hu0 hv0 hp]
      by_cases hname : p ++ booth_suffix = b
      · rw [if_pos hname]
        constructor
        · intro hres
          injection hres with hres
          injection hres with hres
          exact absurd hres hne_auth_amt
        · rintro ⟨p2, b2, hp2, hn2, -⟩
          injection hp2 with hp2
          obtain ⟨rfl, rfl⟩ : p2 = p ∧ b2 = b :=
            ⟨congrArg Prod.fst hp2.symm, congrArg Prod.snd hp2.symm⟩
          exact absurd hname hn2
      · rw [if_neg hname]
        by_cases hamt : (if c.src = p then (c.n < 1 ∨ 5 < c.n) else (c.n < 0 ∨ 10 < c.n))
        · rw [if_pos hamt]
          exact ⟨fun _ => ⟨p, b, rfl, hname, hamt⟩, fun _ => rfl⟩
        · rw [if_neg hamt]
          constructor
          · intro hres
            exfalso
            by_cases hsb : (true && c.src = b : Bool)
            · rw [if_pos hsb] at hres
              cases hps : compute_paid_status s fuel c.old with
              | none => simp [hps] at hres
              | some ps =>
                simp only [hps] at hres
                cases hl : lookupD ps p with
                | none =>
                  simp only [hl] at hres
                  injection hres with hres
                  injection hres with hres
                  exact hne_amt_paid hres.symm
                | some booths =>
                  simp only [hl] at hres
                  by_cases hbm : b ∈ booths
                  · rw [if_pos hbm] at hres
                    injection hres with hres
                    cases hres
                  · rw [if_neg hbm] at hres
                    injection hres with hres
                    injection hres with hres
                    exact hne_amt_paid hres.symm
            · rw [if_neg hsb] at hres
              injection hres with hres
              cases hres
          · rintro ⟨p2, b2, hp2, -, hamt2⟩
            exfalso
            injection hp2 with hp2
            obtain ⟨rfl, rfl⟩ : p2 = p ∧ b2 = b :=
              ⟨congrArg Prod.fst hp2.symm, congrArg Prod.snd hp2.symm⟩
            exact hamt hamt2
  · intro hres
    have huv := is_valid_change_users hres
    refine ⟨huv.1, huv.2, ?_, ?_⟩
    · obtain ⟨u0, hu0⟩ := Option.isSome_iff_exists.mp huv.1
      obtain ⟨v0, hv0⟩ := Option.isSome_iff_exists.mp huv.2
      intro hcond
      rcases hcond with ⟨h1, h2⟩ | ⟨h1, h2⟩ | ⟨p2, b2, hp2, hn2⟩
      · have hp : get_player_booth_pair c.src c.dst = none :=
          (pair_none_iff c.src c.dst).mpr (by rw [h1, h2])
        rw [is_valid_change_no_pair hu0 hv0 hp] at hres
        injection hres with hres
        cases hres
      · have hp : get_player_booth_pair c.src c.dst = none :=
          (pair_none_iff c.src c.dst).mpr (by rw [h1, h2])
        rw [is_valid_change_no_pair hu0 hv0 hp] at hres
        injection hres with hres
        cases hres
      · rw [is_valid_change_pair hu0 hv0 hp2, if_pos hn2] at hres
        injection hres with hres
        cases hres
    · obtain ⟨u0, hu0⟩ := Option.isSome_iff_exists.mp huv.1
      obtain ⟨v0, hv0⟩ := Option.isSome_iff_exists.mp huv.2
      rintro ⟨p2, b2, hp2, hn2, hamt2⟩
      rw [is_valid_change_pair hu0 hv0 hp2, if_neg hn2, if_pos hamt2] at hres
      injection hres with hres
      cases hres

/-- C7: paid-state gating.  A booth→player change that passes the earlier
checks is rejected with `'Not paid'` exactly when the parent's paid state
does not record the booth in the player's paid set; the paid state is empty
at `ROOT_HASH`, and for every stored block it is the parent's paid state
transformed by `apply_paid`, which adds the booth on a player→booth
transfer, removes it on a booth→player transfer, and changes nothing else
(see `mem_apply_paid`). -/
theorem paid_state_gating {hashChange : Change → Nat} {s : BlockChain}
    (HR : ∀ c, hashChange c ≠ ROOT_HASH) (hR : Reachable hashChange s) :
    (∀ fuel c p b ps u0 v0,
        lookupD s.users c.src = some u0 → lookupD s.users c.dst = some v0 →
        get_player_booth_pair c.src c.dst = some (p, b) →
        ¬ p ++ booth_suffix = b →
        ¬ (if c.src = p then (c.n < 1 ∨ 5 < c.n) else (c.n < 0 ∨ 10 < c.n)) →
        c.src = b →
        compute_paid_status s fuel c.old = some ps →
        ((is_valid_change s fuel c true = some (some err_not_paid) ↔ ¬ b ∈ getD ps p [])
          ∧ (is_valid_change s fuel c true = some none ↔ b ∈ getD ps p []))) ∧
    (∀ fuel, compute_paid_status s (fuel + 1) ROOT_HASH = some []) ∧
    (∀ fuel h bk, lookupD s.blocks h = some bk →
        compute_paid_status s (fuel + 1) h
          = (compute_paid_status s fuel bk.change.old).map
              (fun pp => apply_paid pp bk.change)) ∧
    (∀ pp c pl bo,
      (get_player_booth_pair c.src c.dst = none →
        (bo ∈ getD (apply_paid pp c) pl [] ↔ bo ∈ getD pp pl [])) ∧
      (∀ p0 b0, get_player_booth_pair c.src c.dst = some (p0, b0) →
        ((pl = p0 ∧ bo = b0) → (bo ∈ getD (apply_paid pp c) pl [] ↔ c.src = p0)) ∧
        (¬ (pl = p0 ∧ bo = b0) →
          (bo ∈ getD (apply_paid pp c) pl [] ↔ bo ∈ getD pp pl [])))) := by
  have hInv := reachable_inv HR hR
  have hne_paid : err_not_paid ≠ "" := by decide
  refine ⟨?_, ?_, ?_, fun pp c pl bo => mem_apply_paid pp c pl bo⟩
  · intro fuel c p b ps u0 v0 hu hv hp hname hamt hsb hps
    rw [is_valid_change_pair hu hv hp, if_neg hname, if_neg hamt]
    have hcond : (true && decide (c.src = b)) = true := by
      simp [hsb]
    rw [if_pos hcond]
    simp only [hps]
    have hmatch : (match lookupD ps p with
        | none => some (some err_not_paid)
        | some booths => if b ∈ booths then some none else some (some err_not_paid))
        = (if b ∈ getD ps p [] then (some none : Option (Option String))
            else some (some err_not_paid)) := by
      cases hl : lookupD ps p with
      | none => simp [getD, hl]
      | some booths => simp [getD, hl]
    rw [hmatch]
    by_cases hbm : b ∈ getD ps p []
    · rw [if_pos hbm]
      constructor
      · constructor
        · intro h
          injection h with h
          cases h
        · intro h
          exact absurd hbm h
      · exact ⟨fun _ => hbm, fun _ => rfl⟩
    · rw [if_neg hbm]
      constructor
      · exact ⟨fun _ => hbm, fun _ => rfl⟩
      · constructor
        · intro h
          injection h with h
          cases h
        · intro h
          exact absurd h hbm
  · intro fuel
    simp [compute_paid_status]
  · intro fuel h bk hbk
    have hne : h ≠ ROOT_HASH := stored_ne_root HR hInv hbk
    cases hpp : compute_paid_status s fuel bk.change.old with
    | none => simp [compute_paid_status, hne, hbk, hpp]
    | some pp => simp [compute_paid_status, hne, hbk, hpp]

/-- The `is_live` walk terminates from any stored block (or `ROOT_HASH`)
and returns `true` exactly when the target is reached by `old`-links before
`ROOT_HASH`. -/
theorem is_live_walk_spec {hashChange : Change → Nat} {s : BlockChain}
    (HR : ∀ c, hashChange c ≠ ROOT_HASH) (hInv : Inv hashChange s) :
    ∀ fuel ptr blockid, (ptr = ROOT_HASH ∨ (lookupD s.blocks ptr).isSome) →
      getD s.chain_lengths ptr 0 < fuel →
      ∃ r, is_live_walk s fuel ptr blockid = some r ∧
        (r = true ↔ (Reaches s ptr blockid ∧ blockid ≠ ROOT_HASH)) := by
  intro fuel
  induction fuel with
  | zero => intro ptr blockid _ h; omega
  | succ fuel ih =>
    intro ptr blockid hsrc hlt
    by_cases hroot : ptr = ROOT_HASH
    · refine ⟨false, by simp [is_live_walk, hroot], ?_⟩
      simp only [Bool.false_eq_true, false_iff]
      rintro ⟨hre, hne⟩
      cases hre with
      | refl => exact hne (by rw [← hroot])
      | step h t blk hblk =>
        rw [hroot, root_not_stored HR hInv] at hblk
        cases hblk
    · by_cases hbid : ptr = blockid
      · have hb2 : ¬ blockid = ROOT_HASH := hbid ▸ hroot
        refine ⟨true, by simp [is_live_walk, hbid, hb2], ?_⟩
        simp only [true_iff]
        exact ⟨hbid ▸ Reaches.refl ptr, fun h => hroot (hbid.trans h)⟩
      · rcases hsrc with rfl | hs
        · exact absurd rfl hroot
        · obtain ⟨blk, hblk⟩ := Option.isSome_iff_exists.mp hs
          have hp := hInv.parent_ok ptr blk hblk
          have hlen : getD s.chain_lengths ptr 0
              = getD s.chain_lengths blk.change.old 0 + 1 := by
            simp [getD, hInv.len_ok ptr blk hblk]
          obtain ⟨r, hr, hiff⟩ := ih blk.change.old blockid hp (by omega)
          refine ⟨r, by simp [is_live_walk, hroot, hbid, hblk, hr], ?_⟩
          rw [hiff]
          constructor
          · rintro ⟨hre, hne⟩
            exact ⟨Reaches.step ptr blockid blk hblk hre, hne⟩
          · rintro ⟨hre, hne⟩
            refine ⟨?_, hne⟩
            cases hre with
            | refl => exact absurd rfl hbid
            | step h t blk2 hblk2 htail =>
              rw [hblk] at hblk2
              injection hblk2 with he
              rw [he]
              exact htail

/-- C9: `is_live(h)` returns normally on every reachable state, returning
`True` exactly for stored blocks on the head's ancestor chain (including the
head itself), and `False` both for `ROOT_HASH` and for any hash not present
in the block store. -/
theorem is_live_spec {hashChange : Change → Nat} {s : BlockChain}
    (HR : ∀ c, hashChange c ≠ ROOT_HASH) (hR : Reachable hashChange s) :
    ∀ blockid, ∃ r, is_live s blockid = some r ∧
      (r = true ↔ ((lookupD s.blocks blockid).isSome ∧ Reaches s s.head blockid)) ∧
      (lookupD s.blocks blockid = none → r = false) ∧
      (blockid = ROOT_HASH → r = false) := by
  have hInv := reachable_inv HR hR
  intro blockid
  unfold is_live
  by_cases hb : (lookupD s.blocks blockid).isNone
  · refine ⟨false, by rw [if_pos hb], ?_, fun _ => rfl, fun _ => rfl⟩
    simp only [Bool.false_eq_true, false_iff]
    rintro ⟨hsome, -⟩
    rw [Option.isNone_iff_eq_none.mp hb] at hsome
    cases hsome
  · rw [if_neg hb]
    have hbsome : (lookupD s.blocks blockid).isSome := by
      cases hx : lookupD s.blocks blockid with
      | none => exact absurd (by simp [hx]) hb
      | some _ => simp
    obtain ⟨bk, hbk⟩ := Option.isSome_iff_exists.mp hbsome
    obtain ⟨r, hw, hiff⟩ := is_live_walk_spec HR hInv (s.blocks.length + 1) s.head blockid
      hInv.head_ok (getD_len_lt hInv s.head)
    refine ⟨r, hw, ?_, ?_, ?_⟩
    · rw [hiff]
      constructor
      · rintro ⟨hre, -⟩
        exact ⟨hbsome, hre⟩
      · rintro ⟨-, hre⟩
        exact ⟨hre, stored_ne_root HR hInv hbk⟩
    · intro hnone
      rw [hnone] at hbsome
      cases hbsome
    · intro hroot
      cases hr : r with
      | false => rfl
      | true =>
        exfalso
        have := (hiff.mp hr).2
        exact this hroot

/-- When the paid-status walk for `change.old` succeeds, `_is_valid_change`
agrees with the pure validator applied to the computed paid status. -/
theorem is_valid_change_eq_pure {s : BlockChain} {fuel : Nat} {c : Change} {cp : Bool}
    {ps : List (String × List String)}
    (hps : compute_paid_status s fuel c.old = some ps) :
    is_valid_change s fuel c cp = some (valid_change_pure s.users ps c cp) := by
  unfold is_valid_change valid_change_pure
  simp only [hps]
  repeat' split
  all_goals simp_all

/-- Forward evaluation: the missing-parent branch of `add_block`. -/
theorem add_block_pend_eq {hashChange : Change → Nat} {fuel : Nat} {s : BlockChain}
    {block : Block}
    (h1 : lookupD s.blocks (hashChange block.change) = none)
    (h2 : verify_signature hashChange s.users block = true)
    (h3 : block.change.old ≠ ROOT_HASH)
    (h4 : lookupD s.blocks block.change.old = none) :
    add_block hashChange (fuel + 1) s block
      = some (pend_state s block, [block.change.old]) := by
  rw [add_block_succ]
  unfold add_block_go
  rw [if_neg (by simp [h1])]
  rw [h2]
  simp only [Bool.not_true, Bool.false_eq_true, if_false]
  rw [if_pos ⟨h3, by simp [h4]⟩]

/-- Forward evaluation: a successful admission with nothing pending under
the new hash. -/
theorem add_block_admit_eq {hashChange : Change → Nat} {fuel : Nat} {s : BlockChain}
    {block : Block}
    (h1 : lookupD s.blocks (hashChange block.change) = none)
    (h2 : verify_signature hashChange s.users block = true)
    (h3 : ¬(block.change.old ≠ ROOT_HASH ∧ (lookupD s.blocks block.change.old).isNone))
    (h4 : is_valid_change s (s.blocks.length + 1) block.change true = some none)
    (h5 : lookupD s.pending (hashChange block.change) = none) :
    add_block hashChange (fuel + 1) s block
      = some (admit_state s (hashChange block.change) block, []) := by
  rw [add_block_succ]
  unfold add_block_go
  rw [if_neg (by simp [h1])]
  rw [h2]
  simp only [Bool.not_true, Bool.false_eq_true, if_false]
  rw [if_neg h3]
  simp only [h4]
  have hpend : (admit_state s (hashChange block.change) block).pending = s.pending :=
    admit_state_pending s _ block
  rw [hpend, h5]

/-- Forward evaluation: a successful admission that drains a pending
queue. -/
theorem add_block_admit_drain_eq {hashChange : Change → Nat} {fuel : Nat} {s : BlockChain}
    {block : Block} {pb : List Block}
    (h1 : lookupD s.blocks (hashChange block.change) = none)
    (h2 : verify_signature hashChange s.users block = true)
    (h3 : ¬(block.change.old ≠ ROOT_HASH ∧ (lookupD s.blocks block.change.old).isNone))
    (h4 : is_valid_change s (s.blocks.length + 1) block.change true = some none)
    (h5 : lookupD s.pending (hashChange block.change) = some pb) :
    add_block hashChange (fuel + 1) s block
      = drain_pending (add_block hashChange fuel)
          (drain_start s (hashChange block.change) block) pb := by
  rw [add_block_succ]
  unfold add_block_go
  rw [if_neg (by simp [h1])]
  rw [h2]
  simp only [Bool.not_true, Bool.false_eq_true, if_false]
  rw [if_neg h3]
  simp only [h4]
  have hpend : (admit_state s (hashChange block.change) block).pending = s.pending :=
    admit_state_pending s _ block
  rw [hpend, h5]
  unfold drain_start
  rw [hpend]

/-- `admit_state` written out as a record, in the common case where the new
block's chain is strictly longer than the current head's. -/
theorem admit_state_eq {s : BlockChain} {h : Nat} {b : Block}
    (hgt : getD (insertD s.chain_lengths h (getD s.chain_lengths b.change.old 0 + 1)) s.head 0
        < getD (insertD s.chain_lengths h (getD s.chain_lengths b.change.old 0 + 1)) h 0) :
    admit_state s h b =
      { blocks := insertD s.blocks h b
        users := s.users
        head := h
        chain_lengths := insertD s.chain_lengths h (getD s.chain_lengths b.change.old 0 + 1)
        children := insertD s.children b.change.old
          (add_to_set (getD s.children b.change.old []) h)
        pending := s.pending } := by
  unfold admit_state update_head
  simp only []
  rw [if_pos (Or.inl hgt)]

/-- C2: pending drain completeness.  For any chain `a → b → c` of three
correctly signed, semantically valid blocks (validity stated intrinsically
via `valid_change_pure` and the paid states along the chain), offering them
to `add_block` in the reverse order `c, b, a` from the initial state stores
all three blocks and leaves the head at `hash(c.change)`; the first two
offers emit the matching `missing` requests and the last emits none. -/
theorem pending_drain_completeness (hashChange : Change → Nat)
    (userdata : List (String × UserData)) (a b c : Block)
    (hao : a.change.old = ROOT_HASH)
    (hbo : b.change.old = hashChange a.change)
    (hco : c.change.old = hashChange b.change)
    (hAr : hashChange a.change ≠ ROOT_HASH)
    (hBr : hashChange b.change ≠ ROOT_HASH)
    (hCr : hashChange c.change ≠ ROOT_HASH)
    (hAB : hashChange a.change ≠ hashChange b.change)
    (hAC : hashChange a.change ≠ hashChange c.change)
    (hBC : hashChange b.change ≠ hashChange c.change)
    (hsiga : verify_signature hashChange (add_users blockchain_init userdata).users a = true)
    (hsigb : verify_signature hashChange (add_users blockchain_init userdata).users b = true)
    (hsigc : verify_signature hashChange (add_users blockchain_init userdata).users c = true)
    (hva : valid_change_pure (add_users blockchain_init userdata).users [] a.change true
        = none)
    (hvb : valid_change_pure (add_users blockchain_init userdata).users
        (apply_paid [] a.change) b.change true = none)
    (hvc : valid_change_pure (add_users blockchain_init userdata).users
        (apply_paid (apply_paid [] a.change) b.change) c.change true = none) :
    ∃ s1 s2 s3,
      add_block hashChange 3 (add_users blockchain_init userdata) c
          = some (s1, [hashChange b.change]) ∧
      add_block hashChange 3 s1 b = some (s2, [hashChange a.change]) ∧
      add_block hashChange 3 s2 a = some (s3, []) ∧
      lookupD s3.blocks (hashChange a.change) = some a ∧
      lookupD s3.blocks (hashChange b.change) = some b ∧
      lookupD s3.blocks (hashChange c.change) = some c ∧
      s3.head = hashChange c.change := by
  have hBA : hashChange b.change ≠ hashChange a.change := Ne.symm hAB
  have hCA : hashChange c.change ≠ hashChange a.change := Ne.symm hAC
  have hCB : hashChange c.change ≠ hashChange b.change := Ne.symm hBC
  have hrA : ROOT_HASH ≠ hashChange a.change := Ne.symm hAr
  have hrB : ROOT_HASH ≠ hashChange b.change := Ne.symm hBr
  have hrC : ROOT_HASH ≠ hashChange c.change := Ne.symm hCr
  -- step 1: offering c parks it under hash(b.change)
  have step1 : add_block hashChange 3 (add_users blockchain_init userdata) c
      = some (pend_state (add_users blockchain_init userdata) c, [hashChange b.change]) := by
    have h := @add_block_pend_eq hashChange 2
      (add_users blockchain_init userdata) c
      rfl hsigc (by rw [hco]; exact hBr) rfl
    rw [hco] at h
    exact h
  -- step 2: offering b parks it under hash(a.change)
  have step2 : add_block hashChange 3 (pend_state (add_users blockchain_init userdata) c) b
      = some (pend_state (pend_state (add_users blockchain_init userdata) c) b,
          [hashChange a.change]) := by
    have h := @add_block_pend_eq hashChange 2
      (pend_state (add_users blockchain_init userdata) c) b
      rfl hsigb (by rw [hbo]; exact hAr) rfl
    rw [hbo] at h
    exact h
  -- the state after the two parks
  set s2 := pend_state (pend_state (add_users blockchain_init userdata) c) b with hs2def
  have hs2pend : s2.pending
      = [(hashChange b.change, [c]), (hashChange a.change, [b])] := by
    show insertD (insertD [] c.change.old ([] ++ [c])) b.change.old
        (getD (insertD [] c.change.old ([] ++ [c])) b.change.old [] ++ [b]) = _
    rw [hco, hbo]
    simp [insertD, getD, lookupD, hBA]
  -- admitting a
  have hval_a : is_valid_change s2 (s2.blocks.length + 1) a.change true = some none := by
    have hps : compute_paid_status s2 (s2.blocks.length + 1) a.change.old = some [] := by
      rw [hao]
      rfl
    rw [is_valid_change_eq_pure hps]
    show some (valid_change_pure (add_users blockchain_init userdata).users [] a.change true)
        = some none
    rw [hva]
  have hpend_a : lookupD s2.pending (hashChange a.change) = some ([] ++ [b]) := by
    rw [hs2pend]
    simp [lookupD, hBA]
  have step3 : add_block hashChange 3 s2 a
      = drain_pending (add_block hashChange 2)
          (drain_start s2 (hashChange a.change) a) [b] := by
    have h := @add_block_admit_drain_eq hashChange 2 s2 a [b]
      rfl hsiga (fun hcon => hcon.1 hao) hval_a (by simpa using hpend_a)
    exact h
  -- the admitted state for a, written out
  have R1 : admit_state s2 (hashChange a.change) a
      = { blocks := [(hashChange a.change, a)]
          users := (add_users blockchain_init userdata).users
          head := hashChange a.change
          chain_lengths := [(ROOT_HASH, 0), (hashChange a.change, 1)]
          children := [(ROOT_HASH, [hashChange a.change])]
          pending := [(hashChange b.change, [c]), (hashChange a.change, [b])] } := by
    have hcl : insertD s2.chain_lengths (hashChange a.change)
        (getD s2.chain_lengths a.change.old 0 + 1)
        = [(ROOT_HASH, 0), (hashChange a.change, 1)] := by
      show insertD [(ROOT_HASH, 0)] (hashChange a.change)
          (getD [(ROOT_HASH, 0)] a.change.old 0 + 1) = _
      rw [hao]
      simp [insertD, getD, lookupD, hrA]
    have hgt : getD (insertD s2.chain_lengths (hashChange a.change)
          (getD s2.chain_lengths a.change.old 0 + 1)) s2.head 0
        < getD (insertD s2.chain_lengths (hashChange a.change)
          (getD s2.chain_lengths a.change.old 0 + 1)) (hashChange a.change) 0 := by
      rw [hcl]
      show getD _ ROOT_HASH 0 < getD _ (hashChange a.change) 0
      simp [getD, lookupD, hrA]
    have hbl : insertD s2.blocks (hashChange a.change) a
        = [(hashChange a.change, a)] := rfl
    have hch : insertD s2.children a.change.old
        (add_to_set (getD s2.children a.change.old []) (hashChange a.change))
        = [(ROOT_HASH, [hashChange a.change])] := by
      rw [hao]
      rfl
    rw [admit_state_eq hgt, hbl, hcl, hch, hs2pend]
    rfl
  have R5 : drain_start s2 (hashChange a.change) a
      = { blocks := [(hashChange a.change, a)]
          users := (add_users blockchain_init userdata).users
          head := hashChange a.change
          chain_lengths := [(ROOT_HASH, 0), (hashChange a.change, 1)]
          children := [(ROOT_HASH, [hashChange a.change])]
          pending := [(hashChange b.change, [c])] } := by
    unfold drain_start
    rw [R1]
    simp [eraseD, hBA]
  -- admitting b (drained)
  set s5 := drain_start s2 (hashChange a.change) a with hs5def
  have hval_b : is_valid_change s5 (s5.blocks.length + 1) b.change true = some none := by
    have hlen : s5.blocks.length + 1 = 1 + 1 := by rw [R5]; rfl
    have hps : compute_paid_status s5 (s5.blocks.length + 1) b.change.old
        = some (apply_paid [] a.change) := by
      rw [hlen, hbo]
      have e0 : compute_paid_status s5 1 a.change.old = some [] := by
        rw [hao]
        rfl
      have hlk : lookupD s5.blocks (hashChange a.change) = some a := by
        rw [R5]
        simp [lookupD]
      show (if hashChange a.change = ROOT_HASH then some [] else
          match lookupD s5.blocks (hashChange a.change) with
          | none => none
          | some block =>
            match compute_paid_status s5 1 block.change.old with
            | none => none
            | some parent_paid => some (apply_paid parent_paid block.change)) = _
      rw [if_neg hAr, hlk]
      simp only [e0]
    rw [is_valid_change_eq_pure hps]
    have husers : s5.users = (add_users blockchain_init userdata).users := by rw [R5]
    rw [husers, hvb]
  have step4 : add_block hashChange 2 s5 b
      = drain_pending (add_block hashChange 1)
          (drain_start s5 (hashChange b.change) b) [c] := by
    have h1 : lookupD s5.blocks (hashChange b.change) = none := by
      rw [R5]
      simp [lookupD, hAB]
    have h2 : verify_signature hashChange s5.users b = true := by
      rw [R5]
      exact hsigb
    have h3 : ¬(b.change.old ≠ ROOT_HASH ∧ (lookupD s5.blocks b.change.old).isNone) := by
      rintro ⟨-, hcontra⟩
      rw [hbo, R5] at hcontra
      simp [lookupD] at hcontra
    have h5 : lookupD s5.pending (hashChange b.change) = some [c] := by
      rw [R5]
      simp [lookupD]
    exact @add_block_admit_drain_eq hashChange 1 s5 b [c] h1 h2 h3 hval_b h5
  have R2 : admit_state s5 (hashChange b.change) b
      = { blocks := [(hashChange a.change, a), (hashChange b.change, b)]
          users := (add_users blockchain_init userdata).users
          head := hashChange b.change
          chain_lengths := [(ROOT_HASH, 0), (hashChange a.change, 1), (hashChange b.change, 2)]
          children := [(ROOT_HASH, [hashChange a.change]),
            (hashChange a.change, [hashChange b.change])]
          pending := [(hashChange b.change, [c])] } := by
    have hcl : insertD s5.chain_lengths (hashChange b.change)
        (getD s5.chain_lengths b.change.old 0 + 1)
        = [(ROOT_HASH, 0), (hashChange a.change, 1), (hashChange b.change, 2)] := by
      rw [R5, hbo]
      simp [insertD, getD, lookupD, hrA, hrB, hAB, hBA]
    have hgt : getD (insertD s5.chain_lengths (hashChange b.change)
          (getD s5.chain_lengths b.change.old 0 + 1)) s5.head 0
        < getD (insertD s5.chain_lengths (hashChange b.change)
          (getD s5.chain_lengths b.change.old 0 + 1)) (hashChange b.change) 0 := by
      rw [hcl]
      have hh : s5.head = hashChange a.change := by rw [R5]
      rw [hh]
      simp [getD, lookupD, hrA, hrB, hAB, hBA]
    have hbl : insertD s5.blocks (hashChange b.change) b
        = [(hashChange a.change, a), (hashChange b.change, b)] := by
      rw [R5]
      simp [insertD, hAB]
    have hch : insertD s5.children b.change.old
        (add_to_set (getD s5.children b.change.old []) (hashChange b.change))
        = [(ROOT_HASH, [hashChange a.change]),
            (hashChange a.change, [hashChange b.change])] := by
      rw [R5, hbo]
      simp [insertD, add_to_set, getD, lookupD, hrA]
    have hpd : s5.pending = [(hashChange b.change, [c])] := by rw [R5]
    have hus : s5.users = (add_users blockchain_init userdata).users := by rw [R5]
    rw [admit_state_eq hgt, hbl, hcl, hch, hpd, hus]
  have R9 : drain_start s5 (hashChange b.change) b
      = { blocks := [(hashChange a.change, a), (hashChange b.change, b)]
          users := (add_users blockchain_init userdata).users
          head := hashChange b.change
          chain_lengths := [(ROOT_HASH, 0), (hashChange a.change, 1), (hashChange b.change, 2)]
          children := [(ROOT_HASH, [hashChange a.change]),
            (hashChange a.change, [hashChange b.change])]
          pending := [] } := by
    unfold drain_start
    rw [R2]
    simp [eraseD]
  -- admitting c (drained)
  set s9 := drain_start s5 (hashChange b.change) b with hs9def
  have hval_c : is_valid_change s9 (s9.blocks.length + 1) c.change true = some none := by
    have hlen : s9.blocks.length + 1 = 2 + 1 := by rw [R9]; rfl
    have hps : compute_paid_status s9 (s9.blocks.length + 1) c.change.old
        = some (apply_paid (apply_paid [] a.change) b.change) := by
      rw [hlen, hco]
      have e0 : compute_paid_status s9 1 a.change.old = some [] := by
        rw [hao]
        rfl
      have hlkA : lookupD s9.blocks (hashChange a.change) = some a := by
        rw [R9]
        simp [lookupD]
      have hlkB : lookupD s9.blocks (hashChange b.change) = some b := by
        rw [R9]
        simp [lookupD, hAB, hBA]
      have e1 : compute_paid_status s9 2 b.change.old = some (apply_paid [] a.change) := by
        rw [hbo]
        show (if hashChange a.change = ROOT_HASH then some [] else
            match lookupD s9.blocks (hashChange a.change) with
            | none => none
            | some block =>
              match compute_paid_status s9 1 block.change.old with
              | none => none
              | some parent_paid => some (apply_paid parent_paid block.change)) = _
        rw [if_neg hAr, hlkA]
        simp only [e0]
      show (if hashChange b.change = ROOT_HASH then some [] else
          match lookupD s9.blocks (hashChange b.change) with
          | none => none
          | some block =>
            match compute_paid_status s9 2 block.change.old with
            | none => none
            | some parent_paid => some (apply_paid parent_paid block.change)) = _
      rw [if_neg hBr, hlkB]
      simp only [e1]
    rw [is_valid_change_eq_pure hps]
    have husers : s9.users = (add_users blockchain_init userdata).users := by rw [R9]
    rw [husers, hvc]
  have step5 : add_block hashChange 1 s9 c
      = some (admit_state s9 (hashChange c.change) c, []) := by
    have h1 : lookupD s9.blocks (hashChange c.change) = none := by
      rw [R9]
      simp [lookupD, hAC, hBC]
    have h2 : verify_signature hashChange s9.users c = true := by
      rw [R9]
      exact hsigc
    have h3 : ¬(c.change.old ≠ ROOT_HASH ∧ (lookupD s9.blocks c.change.old).isNone) := by
      rintro ⟨-, hcontra⟩
      rw [hco, R9] at hcontra
      simp [lookupD, hAB, hBA] at hcontra
    have h5 : lookupD s9.pending (hashChange c.change) = none := by
      rw [R9]
      rfl
    exact @add_block_admit_eq hashChange 0 s9 c h1 h2 h3 hval_c h5
  have R3 : admit_state s9 (hashChange c.change) c
      = { blocks := [(hashChange a.change, a), (hashChange b.change, b),
            (hashChange c.change, c)]
          users := (add_users blockchain_init userdata).users
          head := hashChange c.change
          chain_lengths := [(ROOT_HASH, 0), (hashChange a.change, 1),
            (hashChange b.change, 2), (hashChange c.change, 3)]
          children := [(ROOT_HASH, [hashChange a.change]),
            (hashChange a.change, [hashChange b.change]),
            (hashChange b.change, [hashChange c.change])]
          pending := [] } := by
    have hcl : insertD s9.chain_lengths (hashChange c.change)
        (getD s9.chain_lengths c.change.old 0 + 1)
        = [(ROOT_HASH, 0), (hashChange a.change, 1), (hashChange b.change, 2),
            (hashChange c.change, 3)] := by
      rw [R9, hco]
      simp [insertD, getD, lookupD, hrB, hrC, hAB, hBA, hAC, hCA, hBC, hCB]
    have hgt : getD (insertD s9.chain_lengths (hashChange c.change)
          (getD s9.chain_lengths c.change.old 0 + 1)) s9.head 0
        < getD (insertD s9.chain_lengths (hashChange c.change)
          (getD s9.chain_lengths c.change.old 0 + 1)) (hashChange c.change) 0 := by
      rw [hcl]
      have hh : s9.head = hashChange b.change := by rw [R9]
      rw [hh]
      simp [getD, lookupD, hrB, hrC, hAB, hBA, hAC, hCA, hBC, hCB]
    have hbl : insertD s9.blocks (hashChange c.change) c
        = [(hashChange a.change, a), (hashChange b.change, b),
            (hashChange c.change, c)] := by
      rw [R9]
      simp [insertD, hAC, hBC, hAB]
    have hch : insertD s9.children c.change.old
        (add_to_set (getD s9.children c.change.old []) (hashChange c.change))
        = [(ROOT_HASH, [hashChange a.change]),
            (hashChange a.change, [hashChange b.change]),
            (hashChange b.change, [hashChange c.change])] := by
      rw [R9, hco]
      simp [insertD, add_to_set, getD, lookupD, hrB, hAB, hBA]
    have hpd : s9.pending = [] := by rw [R9]
    have hus : s9.users = (add_users blockchain_init userdata).users := by rw [R9]
    rw [admit_state_eq hgt, hbl, hcl, hch, hpd, hus]
  -- assemble the drains
  have drain2 : drain_pending (add_block hashChange 1) s9 [c]
      = some (admit_state s9 (hashChange c.change) c, []) := by
    simp [drain_pending, step5]
  have drain1 : drain_pending (add_block hashChange 2) s5 [b]
      = some (admit_state s9 (hashChange c.change) c, []) := by
    have hb2 : add_block hashChange 2 s5 b
        = some (admit_state s9 (hashChange c.change) c, []) := by
      rw [step4]
      exact drain2
    simp [drain_pending, hb2]
  have step3' : add_block hashChange 3 s2 a
      = some (admit_state s9 (hashChange c.change) c, []) := by
    rw [step3]
    exact drain1
  refine ⟨pend_state (add_users blockchain_init userdata) c, s2,
    admit_state s9 (hashChange c.change) c, step1, step2, step3', ?_, ?_, ?_, ?_⟩
  · rw [R3]
    simp [lookupD]
  · rw [R3]
    simp [lookupD, hAB, hBA]
  · rw [R3]
    simp [lookupD, hAC, hCA, hBC, hCB]
  · rw [R3]

/-! ## Demo facts and witnesses -/

theorem demoHash_ne_root : ∀ c, demoHash c ≠ ROOT_HASH := by
  intro c h
  have h2 : ROOT_HASH % 2 = 0 := by decide
  unfold demoHash at h
  omega

set_option exponentiation.threshold 70000 in
set_option maxRecDepth 4000 in
theorem demo_step1 : add_block demoHash 1 demo_s0 demo_block_a = some (demo_s1, []) := by
  decide

theorem demo_reachable : Reachable demoHash demo_s1 :=
  Reachable.step demo_s0 demo_s1 demo_block_a 1 [] (Reachable.init demo_users) demo_step1

/-- Witness for C1 at the concrete reachable state `demo_s1`. -/
theorem head_invariant_witness :
    (∀ c, demoHash c ≠ ROOT_HASH) ∧ Reachable demoHash demo_s1 ∧
      ((∀ h, (lookupD demo_s1.blocks h).isSome →
          getD demo_s1.chain_lengths h 0 < getD demo_s1.chain_lengths demo_s1.head 0 ∨
            (getD demo_s1.chain_lengths h 0 = getD demo_s1.chain_lengths demo_s1.head 0
              ∧ demo_s1.head ≤ h))
        ∧ (demo_s1.blocks = [] → demo_s1.head = ROOT_HASH)
        ∧ (demo_s1.blocks ≠ [] → (lookupD demo_s1.blocks demo_s1.head).isSome)) :=
  ⟨demoHash_ne_root, demo_reachable, head_invariant demoHash_ne_root demo_reachable⟩

/-- Witness for C8 at the concrete reachable state `demo_s1`. -/
theorem chain_length_invariant_witness :
    lookupD demo_s1.chain_lengths ROOT_HASH = some 0 ∧
      ∀ h b, lookupD demo_s1.blocks h = some b →
        (b.change.old = ROOT_HASH ∨ (lookupD demo_s1.blocks b.change.old).isSome) ∧
          ∃ Lp, lookupD demo_s1.chain_lengths b.change.old = some Lp ∧
            lookupD demo_s1.chain_lengths h = some (Lp + 1) :=
  chain_length_invariant demoHash_ne_root demo_reachable

/-- Witness for C3: offering the (parent-stored) block `demo_block_b` to the
state `demo_s1` returns normally with at most one `missing` message. -/
theorem ingestion_contract_witness :
    ∃ s' m, add_block demoHash (total_pending demo_s1 + 1) demo_s1 demo_block_b
        = some (s', m) ∧ (m = [] ∨ m = [demo_block_b.change.old]) := by
  obtain ⟨s', m, h1, h2, -⟩ :=
    ingestion_contract demoHash_ne_root demo_reachable demo_block_b
  exact ⟨s', m, h1, h2⟩

/-- Witness for C5 at the concrete reachable state `demo_s1`. -/
theorem balance_conservation_witness :
    ∃ bal, compute_balances demo_s1 (demo_s1.blocks.length + 1) demo_s1.head = some bal ∧
      (bal.map Prod.snd).sum = 20 * (demo_s1.users.length : Int) := by
  obtain ⟨-, -, h3⟩ := balance_conservation demoHash_ne_root demo_reachable
  exact h3 demo_s1.head (Or.inr (by decide))

/-- Witness for C10 at the concrete reachable state `demo_s1`. -/
theorem get_accounts_witness :
    ∃ bal acc, compute_balances demo_s1 (demo_s1.blocks.length + 1) demo_s1.head
        = some bal ∧
      get_accounts demo_s1 = some acc ∧
      (∀ u v, lookupD acc u = some v ↔ (lookupD bal u = some v ∧ v ≠ 20)) ∧
      (demo_s1.head = ROOT_HASH → acc = []) :=
  get_accounts_spec demoHash_ne_root demo_reachable

/-- Witness for C9 at the concrete reachable state `demo_s1` and the stored
hash 5. -/
theorem is_live_witness :
    ∃ r, is_live demo_s1 5 = some r ∧
      (r = true ↔ ((lookupD demo_s1.blocks 5).isSome ∧ Reaches demo_s1 demo_s1.head 5)) ∧
      (lookupD demo_s1.blocks 5 = none → r = false) ∧
      (5 = ROOT_HASH → r = false) :=
  is_live_spec demoHash_ne_root demo_reachable 5

/-- Witness for C6: an unregistered `src` is reported by name. -/
theorem validator_postcondition_witness :
    is_valid_change demo_s1 1
        { old := ROOT_HASH, src := "nobody", dst := "p", n := 1, memo := "" } true
      = some (some (unknown_user "nobody")) := by
  have h := (validator_postcondition demo_s1 1
    { old := ROOT_HASH, src := "nobody", dst := "p", n := 1, memo := "" }).1
  exact h (by decide)

/-- Witness for C7: the booth→player block `demo_block_b` is accepted
because the parent block recorded the paid booth. -/
theorem paid_state_gating_witness :
    is_valid_change demo_s1 2 demo_change_b true = some none := by
  have h := (paid_state_gating demoHash_ne_root demo_reachable).1
  have h2 := h 2 demo_change_b "p" "q_b" [( "p", ["q_b"] )]
    { key := some 8 } { key := some 10 }
    (by decide) (by decide) (by decide) (by decide) (by decide) (by decide) (by decide)
  exact h2.2.mpr (by decide)

set_option exponentiation.threshold 70000 in
set_option maxRecDepth 4000 in
/-- Witness for C2: the concrete chain from block a to b to c offered as c, b, a. -/
theorem pending_drain_witness :
    ∃ s1 s2 s3,
      add_block demoHash 3 (add_users blockchain_init demo_users) demo_block_c
          = some (s1, [demoHash demo_change_b]) ∧
      add_block demoHash 3 s1 demo_block_b = some (s2, [demoHash demo_change_a]) ∧
      add_block demoHash 3 s2 demo_block_a = some (s3, []) ∧
      lookupD s3.blocks (demoHash demo_change_a) = some demo_block_a ∧
      lookupD s3.blocks (demoHash demo_change_b) = some demo_block_b ∧
      lookupD s3.blocks (demoHash demo_change_c) = some demo_block_c ∧
      s3.head = demoHash demo_change_c :=
  pending_drain_completeness demoHash demo_users demo_block_a demo_block_b demo_block_c
    rfl rfl rfl (by decide) (by decide) (by decide) (by decide) (by decide) (by decide)
    (by decide) (by decide) (by decide) (by decide) (by decide) (by decide)

/-! ## Fork-choice determinism: stability and agreement lemmas -/

/-- `_compute_paid_status` reads only the block store. -/
theorem compute_paid_fields {s t : BlockChain} (hb : t.blocks = s.blocks) :
    ∀ fuel h, compute_paid_status t fuel h = compute_paid_status s fuel h := by
  intro fuel
  induction fuel with
  | zero => intro h; rfl
  | succ fuel ih =>
    intro h
    by_cases hr : h = ROOT_HASH
    · simp [compute_paid_status, hr]
    · cases hlb : lookupD s.blocks h with
      | none => simp [compute_paid_status, hr, hb, hlb]
      | some b => simp [compute_paid_status, hr, hb, hlb, ih b.change.old]

/-- `_is_valid_change` reads only the user registry and the block store. -/
theorem valid_change_fields {s t : BlockChain} (hu : t.users = s.users)
    (hb : t.blocks = s.blocks) (fuel : Nat) (c : Change) (cp : Bool) :
    is_valid_change t fuel c cp = is_valid_change s fuel c cp := by
  unfold is_valid_change
  rw [hu, compute_paid_fields hb fuel c.old]

/-- Extending an ancestor walk by one stored block. -/
theorem reaches_snoc {s : BlockChain} {a h : Nat}
    (hr : Reaches s a h) : ∀ {b : Block}, lookupD s.blocks h = some b →
      Reaches s a b.change.old := by
  induction hr with
  | refl x =>
    intro b hb
    exact Reaches.step x b.change.old b hb (Reaches.refl _)
  | step x t blk hblk htail ih =>
    intro b hb
    exact Reaches.step x b.change.old blk hblk (ih hb)

/-- The paid-status walk gives the same answer in any state that agrees with
`s` on the blocks reachable from `h0`. -/
theorem compute_paid_agree {s t : BlockChain} {h0 : Nat}
    (hD : ∀ x bx, lookupD s.blocks x = some bx → Reaches s h0 x →
      lookupD t.blocks x = some bx) :
    ∀ fuel h ps, Reaches s h0 h → compute_paid_status s fuel h = some ps →
      compute_paid_status t fuel h = some ps := by
  intro fuel
  induction fuel with
  | zero => intro h ps _ hc; cases hc
  | succ fuel ih =>
    intro h ps hreach hc
    by_cases hr : h = ROOT_HASH
    · simp [compute_paid_status, hr] at hc ⊢
      exact hc
    · cases hlb : lookupD s.blocks h with
      | none => simp [compute_paid_status, hr, hlb] at hc
      | some b =>
        have hlb2 := hD h b hlb hreach
        cases hp : compute_paid_status s fuel b.change.old with
        | none => simp [compute_paid_status, hr, hlb, hp] at hc
        | some pp =>
          have hrec := ih b.change.old pp (reaches_snoc hreach hlb) hp
          simp [compute_paid_status, hr, hlb, hp] at hc
          simp [compute_paid_status, hr, hlb2, hrec, hc]

/-- Along a stored ancestor walk, chain lengths are nonincreasing. -/
theorem reaches_stored_len {hashChange : Change → Nat} {s : BlockChain}
    (HR : ∀ c, hashChange c ≠ ROOT_HASH) (hInv : Inv hashChange s) :
    ∀ {a x : Nat}, Reaches s a x → (lookupD s.blocks a).isSome →
      x = ROOT_HASH ∨ ((lookupD s.blocks x).isSome ∧
        getD s.chain_lengths x 0 ≤ getD s.chain_lengths a 0) := by
  intro a x hr
  induction hr with
  | refl h =>
    intro hs
    exact Or.inr ⟨hs, le_refl _⟩
  | step h t blk hblk htail ih =>
    intro _
    have hpar := hInv.parent_ok h blk hblk
    have hlen : getD s.chain_lengths h 0 = getD s.chain_lengths blk.change.old 0 + 1 := by
      simp [getD, hInv.len_ok h blk hblk]
    rcases hpar with hroot | hstored
    · rw [hroot] at htail
      cases htail with
      | refl => exact Or.inl rfl
      | step h2 t2 blk2 hblk2 htail2 =>
        rw [root_not_stored HR hInv] at hblk2
        cases hblk2
    · rcases ih hstored with rfl | ⟨hxs, hle⟩
      · exact Or.inl rfl
      · exact Or.inr ⟨hxs, by omega⟩

/-- The validator gives the same verdict in two invariant states that agree
on the users and on the stored parent chain of the change. -/
theorem valid_change_agree {hashChange : Change → Nat} {s t : BlockChain}
    (hInvs : Inv hashChange s) (hInvt : Inv hashChange t)
    (hu : t.users = s.users) {c : Change}
    (hres : c.old = ROOT_HASH ∨ (lookupD s.blocks c.old).isSome)
    (hD : ∀ x bx, lookupD s.blocks x = some bx → Reaches s c.old x →
      lookupD t.blocks x = some bx) (cp : Bool) :
    is_valid_change t (t.blocks.length + 1) c cp
      = is_valid_change s (s.blocks.length + 1) c cp := by
  obtain ⟨ps, hps⟩ := Option.isSome_iff_exists.mp
    (compute_paid_status_total hInvs (s.blocks.length + 1) c.old hres
      (getD_len_lt hInvs c.old))
  have hpt : compute_paid_status t (s.blocks.length + 1) c.old = some ps :=
    compute_paid_agree hD (s.blocks.length + 1) c.old ps (Reaches.refl _) hps
  have hrest : c.old = ROOT_HASH ∨ (lookupD t.blocks c.old).isSome := by
    rcases hres with hroot | hsome
    · exact Or.inl hroot
    · obtain ⟨b0, hb0⟩ := Option.isSome_iff_exists.mp hsome
      exact Or.inr (by simp [hD c.old b0 hb0 (Reaches.refl _)])
  obtain ⟨ps2, hps2⟩ := Option.isSome_iff_exists.mp
    (compute_paid_status_total hInvt (t.blocks.length + 1) c.old hrest
      (getD_len_lt hInvt c.old))
  have hup : ps2 = ps := by
    have h1 := compute_paid_status_mono (t.blocks.length + 1)
      (t.blocks.length + 1 + (s.blocks.length + 1)) c.old ps2 (by omega) hps2
    have h2 := compute_paid_status_mono (s.blocks.length + 1)
      (t.blocks.length + 1 + (s.blocks.length + 1)) c.old ps (by omega) hpt
    rw [h1] at h2
    exact Option.some.inj h2
  rw [is_valid_change_eq_pure hps, is_valid_change_eq_pure hps2, hup, hu]

/-- Judgements persist as the store grows. -/
theorem decided_mono {hashChange : Change → Nat} {s t : BlockChain}
    (hInvs : Inv hashChange s) (hInvt : Inv hashChange t)
    (hu : t.users = s.users)
    (hsub : ∀ x bx, lookupD s.blocks x = some bx → lookupD t.blocks x = some bx)
    {b : Block} (hd : decided hashChange s b) : decided hashChange t b := by
  rcases hd with hstored | ⟨hres, e, hval⟩
  · obtain ⟨b0, hb0⟩ := Option.isSome_iff_exists.mp hstored
    exact Or.inl (by simp [hsub _ _ hb0])
  · refine Or.inr ⟨?_, e, ?_⟩
    · rcases hres with hroot | hsome
      · exact Or.inl hroot
      · obtain ⟨b0, hb0⟩ := Option.isSome_iff_exists.mp hsome
        exact Or.inr (by simp [hsub _ _ hb0])
    · rw [valid_change_agree hInvs hInvt hu hres (fun x bx hx _ => hsub x bx hx) true]
      exact hval

/-- Judgements only depend on the users and the block store. -/
theorem decided_fields {hashChange : Change → Nat} {s t : BlockChain}
    (hu : t.users = s.users) (hb : t.blocks = s.blocks) {b : Block}
    (hd : decided hashChange s b) : decided hashChange t b := by
  unfold decided at hd ⊢
  rw [hb, valid_change_fields hu hb]
  exact hd

/-- Parking a block keeps every parked block parked. -/
theorem pend_mem_pend_state (s : BlockChain) (x : Block) {b : Block}
    (hp : pend_mem s b) : pend_mem (pend_state s x) b := by
  obtain ⟨bs, hbs, hmem⟩ := hp
  unfold pend_mem pend_state
  simp only
  rw [lookupD_insertD]
  by_cases hk : b.change.old = x.change.old
  · rw [if_pos hk]
    have hg : getD s.pending x.change.old [] = bs := by
      rw [hk] at hbs
      simp [getD, hbs]
    exact ⟨_, rfl, by rw [hg]; exact List.mem_append.mpr (Or.inl hmem)⟩
  · rw [if_neg hk]
    exact ⟨bs, hbs, hmem⟩

/-- A freshly parked block is parked. -/
theorem pend_mem_self (s : BlockChain) (x : Block) : pend_mem (pend_state s x) x := by
  unfold pend_mem pend_state
  simp only
  rw [lookupD_insertD, if_pos rfl]
  exact ⟨_, rfl, List.mem_append.mpr (Or.inr (List.mem_singleton.mpr rfl))⟩

/-- Field lemmas for `drain_start`. -/
theorem drain_start_blocks (s : BlockChain) (h : Nat) (b : Block) :
    (drain_start s h b).blocks = insertD s.blocks h b := admit_state_blocks s h b

theorem drain_start_users (s : BlockChain) (h : Nat) (b : Block) :
    (drain_start s h b).users = s.users := admit_state_users s h b

theorem drain_start_pending (s : BlockChain) (h : Nat) (b : Block) :
    (drain_start s h b).pending = eraseD s.pending h := by
  show eraseD (admit_state s h b).pending h = _
  rw [admit_state_pending]

/-- Weakening the offered list. -/
theorem offer_inv_mono {hashChange : Change → Nat} {P Q : List Block} {s : BlockChain}
    (hP : ∀ b, b ∈ P → b ∈ Q) (hO : OfferInv hashChange P s) :
    OfferInv hashChange Q s :=
  ⟨hO.inv, fun h b hb => hP b (hO.store_mem h b hb), hO.store_sig, hO.store_val,
    fun k bs hk b hb =>
      ⟨hP b (hO.pend_sound k bs hk b hb).1, (hO.pend_sound k bs hk b hb).2⟩⟩

/-- Offering one more block: it joins the offered list as an excused entry. -/
theorem settled_except_extend {hashChange : Change → Nat} {P E : List Block}
    {s : BlockChain} (hS : settled_except hashChange P E s) (x : Block) :
    settled_except hashChange (P ++ [x]) (x :: E) s := by
  intro b hb hsig
  rcases List.mem_append.mp hb with hbP | hbx
  · rcases hS b hbP hsig with hd | hp | he
    · exact Or.inl hd
    · exact Or.inr (Or.inl hp)
    · exact Or.inr (Or.inr (List.mem_cons_of_mem _ he))
  · rw [List.mem_singleton.mp hbx]
    exact Or.inr (Or.inr (List.mem_cons_self _ _))

/-- The executable runner produces an offer trace. -/
theorem runL_toRunList {hashChange : Change → Nat} :
    ∀ L s s', runL hashChange s L = some s' → RunList hashChange s L s' := by
  intro L
  induction L with
  | nil =>
    intro s s' h
    injection h with h
    subst h
    exact RunList.nil s
  | cons b rest ihl =>
    intro s s' h
    cases hs : add_block hashChange (total_pending s + 1) s b with
    | none => simp [runL, hs] at h
    | some st =>
      simp only [runL, hs] at h
      exact RunList.cons s st.1 s' b rest (total_pending s + 1) st.2
        (by rw [hs]) (ihl st.1 s' h)

/-- An offer trace never changes the user registry. -/
theorem run_users {hashChange : Change → Nat} :
    ∀ {s L s'}, RunList hashChange s L s' → s'.users = s.users := by
  intro s L s' hrun
  induction hrun with
  | nil s0 => rfl
  | cons s0 s1 s2 b l fuel msgs hstep htail ihl =>
    rw [ihl, (add_block_mono fuel s0 b s1 msgs hstep).1]

/-- In a list of blocks with pairwise distinct changes, the change determines
the block. -/
theorem change_unique : ∀ {l : List Block},
    l.Pairwise (fun x y => x.change ≠ y.change) →
    ∀ {a b : Block}, a ∈ l → b ∈ l → a.change = b.change → a = b := by
  intro l
  induction l with
  | nil =>
    intro _ a b ha
    exact absurd ha (List.not_mem_nil a)
  | cons x t ihl =>
    intro hd a b ha hb hc
    rcases List.mem_cons.mp ha with rfl | hat
    · rcases List.mem_cons.mp hb with rfl | hbt
      · rfl
      · exact absurd hc ((List.pairwise_cons.mp hd).1 b hbt)
    · rcases List.mem_cons.mp hb with rfl | hbt
      · exact absurd hc.symm ((List.pairwise_cons.mp hd).1 a hat)
      · exact ihl (List.pairwise_cons.mp hd).2 hat hbt hc

/-- A dict with no entries under any key is empty. -/
theorem eq_nil_of_lookupD_none {K V : Type} [DecidableEq K] :
    ∀ l : List (K × V), (∀ k, lookupD l k = none) → l = [] := by
  intro l h
  cases l with
  | nil => rfl
  | cons kv rest =>
    obtain ⟨k, v⟩ := kv
    have h2 := h k
    simp [lookupD] at h2

/-- A nonempty dict has a stored entry. -/
theorem exists_stored_of_ne_nil {K V : Type} [DecidableEq K] :
    ∀ l : List (K × V), l ≠ [] → ∃ k v, lookupD l k = some v := by
  intro l h
  cases l with
  | nil => exact absurd rfl h
  | cons kv rest =>
    obtain ⟨k, v⟩ := kv
    exact ⟨k, v, by simp [lookupD]⟩

/-- Two invariant states with the same stored blocks record the same chain
lengths for them. -/
theorem lens_eq {hashChange : Change → Nat} {s1 s2 : BlockChain}
    (hInv1 : Inv hashChange s1) (hInv2 : Inv hashChange s2)
    (hb : ∀ h, lookupD s1.blocks h = lookupD s2.blocks h) :
    ∀ n h, getD s1.chain_lengths h 0 ≤ n → (lookupD s1.blocks h).isSome →
      getD s1.chain_lengths h 0 = getD s2.chain_lengths h 0 := by
  intro n
  induction n with
  | zero =>
    intro h hle hs
    obtain ⟨b, hbb⟩ := Option.isSome_iff_exists.mp hs
    have hl := hInv1.len_ok h b hbb
    have : getD s1.chain_lengths h 0 = getD s1.chain_lengths b.change.old 0 + 1 := by
      simp [getD, hl]
    omega
  | succ n ihn =>
    intro h hle hs
    obtain ⟨b, hbb⟩ := Option.isSome_iff_exists.mp hs
    have hbb2 : lookupD s2.blocks h = some b := by
      rw [← hb]
      exact hbb
    have hg1 : getD s1.chain_lengths h 0 = getD s1.chain_lengths b.change.old 0 + 1 := by
      simp [getD, hInv1.len_ok h b hbb]
    have hg2 : getD s2.chain_lengths h 0 = getD s2.chain_lengths b.change.old 0 + 1 := by
      simp [getD, hInv2.len_ok h b hbb2]
    rcases hInv1.parent_ok h b hbb with hroot | hstored
    · have hr1 : getD s1.chain_lengths ROOT_HASH 0 = 0 := by
        simp [getD, hInv1.root_len]
      have hr2 : getD s2.chain_lengths ROOT_HASH 0 = 0 := by
        simp [getD, hInv2.root_len]
      rw [hg1, hg2, hroot, hr1, hr2]
    · have hrec := ihn b.change.old (by omega) hstored
      rw [hg1, hg2, hrec]

/-- In an invariant state with a nonempty store, the head is stored. -/
theorem head_stored_of_ne_nil {hashChange : Change → Nat} {s : BlockChain}
    (hInv : Inv hashChange s) (hne : s.blocks ≠ []) :
    (lookupD s.blocks s.head).isSome := by
  rcases hInv.head_ok with hr | hs
  · exfalso
    obtain ⟨k, v, hkv⟩ := exists_stored_of_ne_nil s.blocks hne
    have hmax := hInv.head_max k (by simp [hkv])
    have hlk : getD s.chain_lengths k 0 = getD s.chain_lengths v.change.old 0 + 1 := by
      simp [getD, hInv.len_ok k v hkv]
    have hr0 : getD s.chain_lengths s.head 0 = 0 := by
      rw [hr]
      simp [getD, hInv.root_len]
    rcases hmax with hlt | ⟨heq, -⟩
    · omega
    · omega
  · exact hs

/-- Two invariant states with the same stored blocks have the same head. -/
theorem head_eq {hashChange : Change → Nat} {s1 s2 : BlockChain}
    (hInv1 : Inv hashChange s1) (hInv2 : Inv hashChange s2)
    (hb : ∀ h, lookupD s1.blocks h = lookupD s2.blocks h) :
    s1.head = s2.head := by
  by_cases hempty : s1.blocks = []
  · have hempty2 : s2.blocks = [] := by
      apply eq_nil_of_lookupD_none
      intro k
      rw [← hb k, hempty]
      rfl
    rw [hInv1.head_root hempty, hInv2.head_root hempty2]
  · have hne2 : s2.blocks ≠ [] := by
      intro h2
      apply hempty
      apply eq_nil_of_lookupD_none
      intro k
      rw [hb k, h2]
      rfl
    have h1s := head_stored_of_ne_nil hInv1 hempty
    have h2s := head_stored_of_ne_nil hInv2 hne2
    have h1s2 : (lookupD s2.blocks s1.head).isSome := by
      rw [← hb]
      exact h1s
    have h2s1 : (lookupD s1.blocks s2.head).isSome := by
      rw [hb]
      exact h2s
    have hm2 := hInv2.head_max s1.head h1s2
    have hm1 := hInv1.head_max s2.head h2s1
    have he1 : getD s1.chain_lengths s1.head 0 = getD s2.chain_lengths s1.head 0 :=
      lens_eq hInv1 hInv2 hb (getD s1.chain_lengths s1.head 0) s1.head (le_refl _) h1s
    have he2 : getD s1.chain_lengths s2.head 0 = getD s2.chain_lengths s2.head 0 :=
      lens_eq hInv1 hInv2 hb (getD s1.chain_lengths s2.head 0) s2.head (le_refl _) h2s1
    rcases hm1 with hlt1 | ⟨heq1, hle1⟩ <;> rcases hm2 with hlt2 | ⟨heq2, hle2⟩ <;> omega

/-- The startup state carries the empty offer trace. -/
theorem offer_inv_init (hashChange : Change → Nat) (ud : List (String × UserData)) :
    OfferInv hashChange [] (add_users blockchain_init ud) ∧
      settled_except hashChange [] [] (add_users blockchain_init ud) := by
  constructor
  · refine ⟨inv_init hashChange ud, ?_, ?_, ?_, ?_⟩
    · intro h b hb
      simp [add_users, blockchain_init, lookupD] at hb
    · intro h b hb
      simp [add_users, blockchain_init, lookupD] at hb
    · intro h b hb
      simp [add_users, blockchain_init, lookupD] at hb
    · intro k bs hk
      simp [add_users, blockchain_init, lookupD] at hk
  · intro b hb
    exact absurd hb (List.not_mem_nil b)

/-- One `add_block` call keeps the offer invariant and settles the offered
block, re-settling every block it drains along the way. -/
theorem offer_step {hashChange : Change → Nat} (HR : ∀ c, hashChange c ≠ ROOT_HASH)
    {P : List Block} :
    ∀ fuel s x E s' m,
      OfferInv hashChange P s →
      settled_except hashChange P (x :: E) s →
      x ∈ P →
      add_block hashChange fuel s x = some (s', m) →
      OfferInv hashChange P s' ∧ settled_except hashChange P E s' := by
  intro fuel
  induction fuel with
  | zero =>
    intro s x E s' m _ _ _ hres
    cases hres
  | succ fuel ih =>
    have hdrain : ∀ todo, (∀ b ∈ todo, b ∈ P) → ∀ E2 t t' mm,
        OfferInv hashChange P t →
        settled_except hashChange P (todo ++ E2) t →
        drain_pending (add_block hashChange fuel) t todo = some (t', mm) →
        OfferInv hashChange P t' ∧ settled_except hashChange P E2 t' := by
      intro todo
      induction todo with
      | nil =>
        intro _ E2 t t' mm hO2 hS2 hd
        unfold drain_pending at hd
        obtain ⟨rfl, -⟩ : t = t' ∧ [] = mm := by
          injection hd with h
          exact ⟨congrArg Prod.fst h, congrArg Prod.snd h⟩
        exact ⟨hO2, hS2⟩
      | cons b rest ihl =>
        intro hmem E2 t t' mm hO2 hS2 hd
        cases h1 : add_block hashChange fuel t b with
        | none => simp [drain_pending, h1] at hd
        | some st1 =>
          cases h2 : drain_pending (add_block hashChange fuel) st1.1 rest with
          | none => simp [drain_pending, h1, h2] at hd
          | some st2 =>
            simp only [drain_pending, h1, h2] at hd
            obtain ⟨rfl, -⟩ : st2.1 = t' ∧ st1.2 ++ st2.2 = mm := by
              injection hd with h
              exact ⟨congrArg Prod.fst h, congrArg Prod.snd h⟩
            obtain ⟨hOa, hSa⟩ := ih t b (rest ++ E2) st1.1 st1.2 hO2 hS2
              (hmem b (List.mem_cons_self b rest)) h1
            exact ihl (fun b2 hb2 => hmem b2 (List.mem_cons_of_mem b hb2))
              E2 st1.1 st2.1 st2.2 hOa hSa h2
    intro s x E s' m hO hS hxP hres
    have hInv := hO.inv
    obtain ⟨husers', hsub'⟩ := add_block_mono (fuel + 1) s x s' m hres
    rw [add_block_succ] at hres
    rcases add_block_go_cases hres with
      ⟨hstored, rfl, -⟩ | ⟨hnew, hsigf, rfl, -⟩ | ⟨hnew, hsig, hnroot, hnpar, rfl, -⟩ |
      ⟨e, hnew, hsig, hpar, hval, rfl, -⟩ | ⟨hnew, hsig, hpar, hval, hrest⟩
    · -- duplicate: state unchanged, x already stored
      refine ⟨hO, ?_⟩
      intro b hbP hbsig
      rcases hS b hbP hbsig with hd | hp | hmem
      · exact Or.inl hd
      · exact Or.inr (Or.inl hp)
      · rcases List.mem_cons.mp hmem with rfl | hmemE
        · exact Or.inl (Or.inl hstored)
        · exact Or.inr (Or.inr hmemE)
    · -- bad signature: state unchanged, obligation for x is vacuous
      refine ⟨hO, ?_⟩
      intro b hbP hbsig
      rcases hS b hbP hbsig with hd | hp | hmem
      · exact Or.inl hd
      · exact Or.inr (Or.inl hp)
      · rcases List.mem_cons.mp hmem with rfl | hmemE
        · rw [hbsig] at hsigf
          cases hsigf
        · exact Or.inr (Or.inr hmemE)
    · -- missing parent: x is parked
      have hInvp : Inv hashChange (pend_state s x) := inv_pend_state hInv x
      refine ⟨⟨hInvp, ?_, ?_, ?_, ?_⟩, ?_⟩
      · intro h b hb
        exact hO.store_mem h b hb
      · intro h b hb
        exact hO.store_sig h b hb
      · intro h b hb
        rw [@valid_change_fields s (pend_state s x) rfl rfl
          ((pend_state s x).blocks.length + 1) b.change true]
        exact hO.store_val h b hb
      · intro k bs hk b hb
        rw [show (pend_state s x).pending
            = insertD s.pending x.change.old
              (getD s.pending x.change.old [] ++ [x]) from rfl] at hk
        rw [lookupD_insertD] at hk
        by_cases hko : k = x.change.old
        · rw [if_pos hko] at hk
          injection hk with hk
          subst hk
          rcases List.mem_append.mp hb with hb1 | hb2
          · cases hg : lookupD s.pending x.change.old with
            | none =>
              rw [getD, hg] at hb1
              simp at hb1
            | some l0 =>
              rw [getD, hg] at hb1
              simp only [Option.getD_some] at hb1
              exact hO.pend_sound x.change.old l0 hg b hb1
          · simp at hb2
            subst hb2
            exact ⟨hxP, hsig⟩
        · rw [if_neg hko] at hk
          exact hO.pend_sound k bs hk b hb
      · intro b hbP hbsig
        rcases hS b hbP hbsig with hd | hp | hmem
        · exact Or.inl (@decided_fields hashChange s (pend_state s x) rfl rfl b hd)
        · exact Or.inr (Or.inl (pend_mem_pend_state s x hp))
        · rcases List.mem_cons.mp hmem with rfl | hmemE
          · exact Or.inr (Or.inl (pend_mem_self s b))
          · exact Or.inr (Or.inr hmemE)
    · -- semantically invalid: state unchanged, x is decided negatively
      refine ⟨hO, ?_⟩
      intro b hbP hbsig
      rcases hS b hbP hbsig with hd | hp | hmem
      · exact Or.inl hd
      · exact Or.inr (Or.inl hp)
      · rcases List.mem_cons.mp hmem with rfl | hmemE
        · exact Or.inl (Or.inr ⟨hpar, e, hval⟩)
        · exact Or.inr (Or.inr hmemE)
    · -- admission, possibly followed by a pending drain
      have hInv4 : Inv hashChange (admit_state s (hashChange x.change) x) :=
        inv_admit_state HR hInv x hnew hpar hval
      have husers4 : (admit_state s (hashChange x.change) x).users = s.users :=
        admit_state_users s (hashChange x.change) x
      have hsub4 : ∀ h2 b2, lookupD s.blocks h2 = some b2 →
          lookupD (admit_state s (hashChange x.change) x).blocks h2 = some b2 := by
        intro h2 b2 hb2
        rw [admit_state_blocks, lookupD_insertD]
        have hne : h2 ≠ hashChange x.change := by
          intro heq
          rw [heq, hnew] at hb2
          cases hb2
        rw [if_neg hne]
        exact hb2
      have hstored4 : lookupD (admit_state s (hashChange x.change) x).blocks
          (hashChange x.change) = some x := by
        rw [admit_state_blocks, lookupD_insertD, if_pos rfl]
      have hlookup4 : ∀ h2 b2,
          lookupD (admit_state s (hashChange x.change) x).blocks h2 = some b2 →
          (h2 = hashChange x.change ∧ b2 = x) ∨ lookupD s.blocks h2 = some b2 := by
        intro h2 b2 hb2
        rw [admit_state_blocks, lookupD_insertD] at hb2
        by_cases hko : h2 = hashChange x.change
        · rw [if_pos hko] at hb2
          injection hb2 with hb2
          exact Or.inl ⟨hko, hb2.symm⟩
        · rw [if_neg hko] at hb2
          exact Or.inr hb2
      have hO4 : OfferInv hashChange P (admit_state s (hashChange x.change) x) := by
        refine ⟨hInv4, ?_, ?_, ?_, ?_⟩
        · intro h2 b2 hb2
          rcases hlookup4 h2 b2 hb2 with ⟨-, rfl⟩ | hold
          · exact hxP
          · exact hO.store_mem h2 b2 hold
        · intro h2 b2 hb2
          rw [husers4]
          rcases hlookup4 h2 b2 hb2 with ⟨-, rfl⟩ | hold
          · exact hsig
          · exact hO.store_sig h2 b2 hold
        · intro h2 b2 hb2
          have hres2 : b2.change.old = ROOT_HASH
              ∨ (lookupD s.blocks b2.change.old).isSome := by
            rcases hlookup4 h2 b2 hb2 with ⟨-, rfl⟩ | hold
            · exact hpar
            · exact hInv.parent_ok h2 b2 hold
          rw [valid_change_agree hInv hInv4 husers4 hres2
            (fun x2 bx hx2 _ => hsub4 x2 bx hx2) true]
          rcases hlookup4 h2 b2 hb2 with ⟨-, rfl⟩ | hold
          · exact hval
          · exact hO.store_val h2 b2 hold
        · intro k bs hk b hb
          rw [admit_state_pending] at hk
          have := hO.pend_sound k bs hk b hb
          rw [husers4]
          exact this
      have hdec4 : ∀ {b : Block}, decided hashChange s b →
          decided hashChange (admit_state s (hashChange x.change) x) b :=
        fun hd => decided_mono hInv hInv4 husers4 hsub4 hd
      rcases hrest with ⟨hpnone, rfl, -⟩ | ⟨pb, hpb, hdrainres⟩
      · -- no blocks were waiting on x
        refine ⟨hO4, ?_⟩
        intro b hbP hbsig
        rw [husers4] at hbsig
        rcases hS b hbP hbsig with hd | hp | hmem
        · exact Or.inl (hdec4 hd)
        · obtain ⟨bs, hbs, hbmem⟩ := hp
          refine Or.inr (Or.inl ⟨bs, ?_, hbmem⟩)
          rw [admit_state_pending]
          exact hbs
        · rcases List.mem_cons.mp hmem with rfl | hmemE
          · exact Or.inl (Or.inl (by simp [hstored4]))
          · exact Or.inr (Or.inr hmemE)
      · -- drain the blocks that were waiting on x
        have hInv0 : Inv hashChange (drain_start s (hashChange x.change) x) :=
          inv_erase_pending hInv4 (hashChange x.change)
        have husers0 : (drain_start s (hashChange x.change) x).users = s.users :=
          drain_start_users s (hashChange x.change) x
        have hO0 : OfferInv hashChange P (drain_start s (hashChange x.change) x) := by
          refine ⟨hInv0, ?_, ?_, ?_, ?_⟩
          · intro h2 b2 hb2
            rw [show (drain_start s (hashChange x.change) x).blocks
                = (admit_state s (hashChange x.change) x).blocks from rfl] at hb2
            exact hO4.store_mem h2 b2 hb2
          · intro h2 b2 hb2
            rw [husers0, ← husers4]
            rw [show (drain_start s (hashChange x.change) x).blocks
                = (admit_state s (hashChange x.change) x).blocks from rfl] at hb2
            exact hO4.store_sig h2 b2 hb2
          · intro h2 b2 hb2
            rw [show (drain_start s (hashChange x.change) x).blocks
                = (admit_state s (hashChange x.change) x).blocks from rfl] at hb2
            rw [@valid_change_fields (admit_state s (hashChange x.change) x)
              (drain_start s (hashChange x.change) x) (by rw [husers0, husers4]) rfl
              ((drain_start s (hashChange x.change) x).blocks.length + 1) b2.change true]
            exact hO4.store_val h2 b2 hb2
          · intro k bs hk b hb
            rw [drain_start_pending] at hk
            by_cases hkk : k = hashChange x.change
            · rw [hkk, lookupD_eraseD_self s.pending (hashChange x.change)
                hInv.pending_nodup] at hk
              cases hk
            · rw [lookupD_eraseD_ne s.pending (hashChange x.change) k hkk] at hk
              have := hO.pend_sound k bs hk b hb
              rw [husers0]
              exact this
        have hS0 : settled_except hashChange P (pb ++ E)
            (drain_start s (hashChange x.change) x) := by
          intro b hbP2 hbsig2
          have hbsig0 : verify_signature hashChange s.users b = true := by
            rw [husers0] at hbsig2
            exact hbsig2
          rcases hS b hbP2 hbsig0 with hd | hp | hmem
          · refine Or.inl (@decided_fields hashChange
              (admit_state s (hashChange x.change) x)
              (drain_start s (hashChange x.change) x) ?_ rfl b (hdec4 hd))
            rw [husers0, husers4]
          · obtain ⟨bs, hbs, hbmem⟩ := hp
            by_cases hkk : b.change.old = hashChange x.change
            · rw [hkk] at hbs
              rw [hpb] at hbs
              injection hbs with hbs
              subst hbs
              exact Or.inr (Or.inr (List.mem_append_left E hbmem))
            · refine Or.inr (Or.inl ⟨bs, ?_, hbmem⟩)
              rw [drain_start_pending,
                lookupD_eraseD_ne s.pending (hashChange x.change) b.change.old hkk]
              exact hbs
          · rcases List.mem_cons.mp hmem with rfl | hmemE
            · refine Or.inl (Or.inl ?_)
              rw [show (drain_start s (hashChange b.change) b).blocks
                  = (admit_state s (hashChange b.change) b).blocks from rfl, hstored4]
              rfl
            · exact Or.inr (Or.inr (List.mem_append_right pb hmemE))
        exact hdrain pb
          (fun b hb => (hO.pend_sound (hashChange x.change) pb hpb b hb).1)
          E (drain_start s (hashChange x.change) x) s' m hO0 hS0 hdrainres

/-- Running a list of blocks maintains the offer invariant, extending the
offered list by the blocks run. -/
theorem run_offer_inv {hashChange : Change → Nat} (HR : ∀ c, hashChange c ≠ ROOT_HASH) :
    ∀ {s L s'}, RunList hashChange s L s' → ∀ P,
      OfferInv hashChange P s → settled_except hashChange P [] s →
      OfferInv hashChange (P ++ L) s' ∧ settled_except hashChange (P ++ L) [] s' := by
  intro s L s' hrun
  induction hrun with
  | nil s0 =>
    intro P hO hS
    rw [List.append_nil]
    exact ⟨hO, hS⟩
  | cons s0 s1 s2 b l fuel msgs hstep htail ihl =>
    intro P hO hS
    have hO' := offer_inv_mono (fun b2 hb2 => List.mem_append_left [b] hb2) hO
    have hS' := settled_except_extend hS b
    obtain ⟨hO1, hS1⟩ := offer_step HR fuel s0 b [] s1 msgs hO' hS'
      (List.mem_append_right P (List.mem_singleton.mpr rfl)) hstep
    obtain ⟨hO2, hS2⟩ := ihl (P ++ [b]) hO1 hS1
    rw [List.append_assoc] at hO2 hS2
    exact ⟨hO2, hS2⟩

/-- Each block stored by one complete (drained) run is stored identically by
any other complete run over the same block set. -/
theorem final_store_sub {hashChange : Change → Nat}
    (HR : ∀ c, hashChange c ≠ ROOT_HASH) (hinj : Function.Injective hashChange)
    {L1 L2 : List Block} {s1 s2 : BlockChain}
    (hmem12 : ∀ b, b ∈ L1 → b ∈ L2)
    (hdist2 : L2.Pairwise (fun x y => x.change ≠ y.change))
    (hO1 : OfferInv hashChange L1 s1) (hO2 : OfferInv hashChange L2 s2)
    (hS2 : settled_except hashChange L2 [] s2)
    (husers : s2.users = s1.users)
    (hp2 : s2.pending = []) :
    ∀ n h b, getD s1.chain_lengths h 0 ≤ n → lookupD s1.blocks h = some b →
      lookupD s2.blocks h = some b := by
  have hInv1 := hO1.inv
  have hInv2 := hO2.inv
  intro n
  induction n with
  | zero =>
    intro h b hle hb
    have hl : getD s1.chain_lengths h 0 = getD s1.chain_lengths b.change.old 0 + 1 := by
      simp [getD, hInv1.len_ok h b hb]
    omega
  | succ n ihn =>
    intro h b hle hb
    have hhash : hashChange b.change = h := hInv1.blocks_hash h b hb
    have hbL2 : b ∈ L2 := hmem12 b (hO1.store_mem h b hb)
    have hsig2 : verify_signature hashChange s2.users b = true := by
      rw [husers]
      exact hO1.store_sig h b hb
    have hpar1 := hInv1.parent_ok h b hb
    have hlh : getD s1.chain_lengths h 0 = getD s1.chain_lengths b.change.old 0 + 1 := by
      simp [getD, hInv1.len_ok h b hb]
    have hD : ∀ x bx, lookupD s1.blocks x = some bx → Reaches s1 b.change.old x →
        lookupD s2.blocks x = some bx := by
      intro x bx hx hreach
      rcases hpar1 with hroot | hstored
      · rw [hroot] at hreach
        cases hreach with
        | refl =>
          rw [root_not_stored HR hInv1] at hx
          cases hx
        | step h2 t2 blk hblk htail =>
          rw [root_not_stored HR hInv1] at hblk
          cases hblk
      · rcases reaches_stored_len HR hInv1 hreach hstored with rfl | ⟨hxs, hxle⟩
        · rw [root_not_stored HR hInv1] at hx
          cases hx
        · exact ihn x bx (by omega) hx
    rcases hS2 b hbL2 hsig2 with hdec | hpend | habs
    · rcases hdec with hstored2 | ⟨hres2, e, hval2⟩
      · obtain ⟨b2, hb2⟩ := Option.isSome_iff_exists.mp hstored2
        have hbc : b2.change = b.change := hinj (hInv2.blocks_hash _ b2 hb2)
        have hbeq : b2 = b :=
          change_unique hdist2 (hO2.store_mem _ b2 hb2) hbL2 hbc
        rw [hhash, hbeq] at hb2
        exact hb2
      · exfalso
        have hval1 := hO1.store_val h b hb
        have hagree := valid_change_agree hInv1 hInv2 husers hpar1 hD true
        rw [hagree, hval1] at hval2
        cases Option.some.inj hval2
    · obtain ⟨bs, hbs, -⟩ := hpend
      rw [hp2] at hbs
      cases hbs
    · exact absurd habs (List.not_mem_nil b)

/-- C4: fork-choice determinism.  For a collision-free change hash, offering
the same finite set of blocks (pairwise distinct changes) to `add_block` in
any two orders, where both runs return normally and both leave the pending
buffer fully drained, yields the same final stored-block map and the
identical head hash. -/
theorem fork_choice_determinism {hashChange : Change → Nat}
    (HR : ∀ c, hashChange c ≠ ROOT_HASH) (hinj : Function.Injective hashChange)
    {userdata : List (String × UserData)} {L1 L2 : List Block}
    (hdist : L1.Pairwise (fun x y => x.change ≠ y.change))
    (hperm : L1.Perm L2) {s1 s2 : BlockChain}
    (hrun1 : RunList hashChange (add_users blockchain_init userdata) L1 s1)
    (hrun2 : RunList hashChange (add_users blockchain_init userdata) L2 s2)
    (hp1 : s1.pending = []) (hp2 : s2.pending = []) :
    (∀ h, lookupD s1.blocks h = lookupD s2.blocks h) ∧ s1.head = s2.head := by
  obtain ⟨hOi, hSi⟩ := offer_inv_init hashChange userdata
  obtain ⟨hO1, hS1⟩ := run_offer_inv HR hrun1 [] hOi hSi
  obtain ⟨hO2, hS2⟩ := run_offer_inv HR hrun2 [] hOi hSi
  rw [List.nil_append] at hO1 hS1 hO2 hS2
  have hdist2 : L2.Pairwise (fun x y => x.change ≠ y.change) := by
    refine (List.Perm.pairwise_iff ?_ hperm).mp hdist
    intro a b hne
    exact fun hq => hne hq.symm
  have husers12 : s2.users = s1.users := by
    rw [run_users hrun1, run_users hrun2]
  have hfwd : ∀ h b, lookupD s1.blocks h = some b → lookupD s2.blocks h = some b :=
    fun h b hb => final_store_sub HR hinj (fun b2 hb2 => hperm.mem_iff.mp hb2)
      hdist2 hO1 hO2 hS2 husers12 hp2 (getD s1.chain_lengths h 0) h b (le_refl _) hb
  have hbwd : ∀ h b, lookupD s2.blocks h = some b → lookupD s1.blocks h = some b :=
    fun h b hb => final_store_sub HR hinj (fun b2 hb2 => hperm.mem_iff.mpr hb2)
      hdist hO2 hO1 hS1 husers12.symm hp1 (getD s2.chain_lengths h 0) h b (le_refl _) hb
  have hpoint : ∀ h, lookupD s1.blocks h = lookupD s2.blocks h := by
    intro h
    cases h1 : lookupD s1.blocks h with
    | some b =>
      rw [hfwd h b h1]
    | none =>
      cases h2 : lookupD s2.blocks h with
      | none => rfl
      | some b =>
        have := hbwd h b h2
        rw [h1] at this
        cases this
  exact ⟨hpoint, head_eq hO1.inv hO2.inv hpoint⟩

/-! ## Fork-choice witness: injectivity of the concrete hash -/

theorem encodeList_inj : Function.Injective encodeList := by
  intro l1
  induction l1 with
  | nil =>
    intro l2 h
    cases l2 with
    | nil => rfl
    | cons a t =>
      exact absurd h (by simp [encodeList])
  | cons a t ihl =>
    intro l2 h
    cases l2 with
    | nil => exact absurd h (by simp [encodeList])
    | cons a2 t2 =>
      simp only [encodeList] at h
      have h2 : Nat.pair a (encodeList t) = Nat.pair a2 (encodeList t2) := by omega
      rw [Nat.pair_eq_pair] at h2
      rw [h2.1, ihl h2.2]

theorem encodeStr_inj : Function.Injective encodeStr := by
  intro x y h
  unfold encodeStr at h
  have hchar : Function.Injective Char.toNat := fun a b hab => Char.ext (UInt32.ext hab)
  have h3 : x.toList = y.toList :=
    (List.map_injective_iff.mpr hchar) (encodeList_inj h)
  cases x
  cases y
  simp only [String.toList] at h3
  exact congrArg String.mk h3

theorem encodeInt_inj : Function.Injective encodeInt := by
  intro m n h
  unfold encodeInt at h
  split at h <;> split at h <;> omega

theorem injHash_inj : Function.Injective injHash := by
  intro c1 c2 h
  obtain ⟨o1, sr1, d1, n1, m1⟩ := c1
  obtain ⟨o2, sr2, d2, n2, m2⟩ := c2
  simp only [injHash, encodeChange] at h
  have h2 : Nat.pair o1 (Nat.pair (encodeStr sr1) (Nat.pair (encodeStr d1)
      (Nat.pair (encodeInt n1) (encodeStr m1))))
      = Nat.pair o2 (Nat.pair (encodeStr sr2) (Nat.pair (encodeStr d2)
      (Nat.pair (encodeInt n2) (encodeStr m2)))) := by omega
  rw [Nat.pair_eq_pair] at h2
  obtain ⟨h_old, h2⟩ := h2
  rw [Nat.pair_eq_pair] at h2
  obtain ⟨h_src, h2⟩ := h2
  rw [Nat.pair_eq_pair] at h2
  obtain ⟨h_dst, h2⟩ := h2
  rw [Nat.pair_eq_pair] at h2
  obtain ⟨h_n, h_memo⟩ := h2
  rw [h_old, encodeStr_inj h_src, encodeStr_inj h_dst, encodeInt_inj h_n,
    encodeStr_inj h_memo]

theorem injHash_ne_root : ∀ c, injHash c ≠ ROOT_HASH := by
  intro c h
  have h2 : ROOT_HASH % 2 = 0 := by decide
  unfold injHash at h
  omega

set_option exponentiation.threshold 70000 in
set_option maxRecDepth 8000 in
/-- Witness for C4: the concrete parent/child pair offered out of order and
in order produces the same store and the same head. -/
theorem fork_choice_witness :
    (∀ h, lookupD fc_run1.blocks h = lookupD fc_run2.blocks h) ∧
      fc_run1.head = fc_run2.head :=
  fork_choice_determinism injHash_ne_root injHash_inj
    (by decide)
    (List.Perm.swap fc_block_a fc_block_b [])
    (runL_toRunList [fc_block_b, fc_block_a] fc_s0 fc_run1 rfl)
    (runL_toRunList [fc_block_a, fc_block_b] fc_s0 fc_run2 rfl)
    rfl rfl

end BlockchainSpec
